import Mathlib

/-!
Verification of the position-tracking and relocation engine of the
bookmark extension.

Strings from the TypeScript source are modelled as `List Char`;
documents as lists of lines; 1-based line numbers as `Nat`; signed line
deltas as `Int`.  All definitions are transcribed from the source files
(`src/services/contentAnchorService.ts` and the
`BookmarkPositionTracker` service); definitions whose name ends in
`Spec` are instead transcribed from the natural-language specification,
for comparison against the code.
-/

set_option autoImplicit false

namespace Bookmarker

/-! ### Anchor generator (contentAnchorService.ts, generateAnchor)

The source: `lineText.trim().substring(0, maxLength).replace(/\s+/g, ' ')`.
-/

/-- Whitespace as matched by the JavaScript regexp class `\s` (which is,
in modern ECMAScript, the same set of characters removed by
`String.prototype.trim`): space, tab, line terminators, and the Unicode
space separators. -/
def isJsWhitespace (c : Char) : Bool :=
  c ∈ [' ', '\t', '\n', '\x0b', '\x0c', '\r',
       ' ', ' ',
       ' ', ' ', ' ', ' ', ' ', ' ',
       ' ', ' ', ' ', ' ', ' ',
       ' ', ' ', ' ', ' ', '　', '﻿']

/-- Model of `String.prototype.trim`: drop leading and trailing
whitespace. -/
def trim (s : List Char) : List Char :=
  ((s.dropWhile isJsWhitespace).reverse.dropWhile isJsWhitespace).reverse

/-- Model of `.replace(/\s+/g, ' ')`: every maximal run of whitespace
characters is replaced by a single space.  The recursion emits the
single space at the last character of each run. -/
def collapseWs : List Char → List Char
  | [] => []
  | [c] => if isJsWhitespace c then [' '] else [c]
  | c :: d :: cs =>
    if isJsWhitespace c && isJsWhitespace d then collapseWs (d :: cs)
    else (if isJsWhitespace c then ' ' else c) :: collapseWs (d :: cs)

/-- Transcription of `ContentAnchorService.generateAnchor` (and of the
identical inline computation in `updateContentAnchor`):
`lineText.trim().substring(0, maxLength).replace(/\s+/g, ' ')` —
note the source truncates before collapsing whitespace. -/
def generateAnchor (lineText : List Char) (maxLength : Nat) : List Char :=
  collapseWs ((trim lineText).take maxLength)

/-- Modelled from the spec wording of claim C4: "trimming
leading/trailing whitespace, then collapsing every internal run of
whitespace to a single space, then truncating to the first maxLength
characters — in that order". -/
def generateAnchorSpec (lineText : List Char) (maxLength : Nat) : List Char :=
  (collapseWs (trim lineText)).take maxLength

/-! Basic lemmas about `collapseWs`. -/

theorem collapseWs_length_le : ∀ s : List Char, (collapseWs s).length ≤ s.length
  | [] => by simp [collapseWs]
  | [c] => by by_cases h : isJsWhitespace c <;> simp [collapseWs, h]
  | c :: d :: cs => by
    by_cases h : isJsWhitespace c && isJsWhitespace d
    · simp only [collapseWs, h, if_pos]
      have := collapseWs_length_le (d :: cs)
      simpa using Nat.le_succ_of_le this
    · simp only [collapseWs, h, if_neg, Bool.not_eq_true]
      have := collapseWs_length_le (d :: cs)
      simp only [List.length_cons] at this ⊢
      omega

/-- In the output of `collapseWs`, every whitespace character is a
space and no two adjacent characters are both whitespace. -/
def Collapsed (s : List Char) : Prop :=
  (∀ c ∈ s, isJsWhitespace c → c = ' ') ∧
    s.Chain' (fun a b => ¬(isJsWhitespace a ∧ isJsWhitespace b))

theorem collapsed_nil : Collapsed [] := by
  constructor
  · intro c hc; cases hc
  · exact List.chain'_nil

theorem collapseWs_cons_of_not_ws (d : Char) (cs : List Char)
    (hd : ¬ isJsWhitespace d) :
    collapseWs (d :: cs) = d :: collapseWs cs := by
  cases cs with
  | nil => simp [collapseWs, hd]
  | cons e es => simp [collapseWs, hd]

theorem collapseWs_collapsed : ∀ s : List Char, Collapsed (collapseWs s)
  | [] => by simpa [collapseWs] using collapsed_nil
  | [c] => by
    by_cases h : isJsWhitespace c <;>
      simp_all [collapseWs, Collapsed, List.chain'_singleton]
  | c :: d :: cs => by
    have ih := collapseWs_collapsed (d :: cs)
    by_cases h : isJsWhitespace c && isJsWhitespace d
    · simpa only [collapseWs, h, if_pos] using ih
    · simp only [collapseWs, h, if_neg, Bool.not_eq_true]
      obtain ⟨ih1, ih2⟩ := ih
      constructor
      · intro x hx hwx
        rcases List.mem_cons.mp hx with hx | hx
        · subst hx
          by_cases hc : isJsWhitespace c <;> simp_all
        · exact ih1 x hx hwx
      · rw [List.chain'_cons']
        refine ⟨?_, ih2⟩
        intro y hy hcon
        obtain ⟨h1, h2⟩ := hcon
        have hcw : isJsWhitespace c := by
          by_cases hc : isJsWhitespace c
          · exact hc
          · rw [if_neg (by simpa using hc)] at h1
            exact absurd h1 hc
        have hdw : ¬ isJsWhitespace d = true := by
          intro hd
          simp [hcw, hd] at h
        rw [collapseWs_cons_of_not_ws d cs hdw] at hy
        simp only [List.head?_cons, Option.mem_def, Option.some.injEq] at hy
        subst hy
        exact hdw h2

theorem collapseWs_of_collapsed : ∀ s : List Char, Collapsed s → collapseWs s = s
  | [], _ => rfl
  | [c], h => by
    by_cases hc : isJsWhitespace c
    · have : c = ' ' := h.1 c (by simp) hc
      simp [collapseWs, hc, this]
    · simp [collapseWs, hc]
  | c :: d :: cs, h => by
    have hnadj : ¬(isJsWhitespace c ∧ isJsWhitespace d) :=
      (List.chain'_cons.mp h.2).1
    have htail : Collapsed (d :: cs) := by
      refine ⟨fun x hx => h.1 x (List.mem_cons_of_mem c hx), ?_⟩
      exact (List.chain'_cons'.mp h.2).2
    have ih := collapseWs_of_collapsed (d :: cs) htail
    have hb : (isJsWhitespace c && isJsWhitespace d) = false := by
      by_cases h1 : isJsWhitespace c <;> by_cases h2 : isJsWhitespace d <;>
        simp_all
    simp only [collapseWs, hb, Bool.false_eq_true, if_neg, ih]
    by_cases hc : isJsWhitespace c
    · have : c = ' ' := h.1 c (by simp) hc
      simp [hc, this]
    · simp [hc]

theorem generateAnchor_length_le (lineText : List Char) (maxLength : Nat) :
    (generateAnchor lineText maxLength).length ≤ maxLength := by
  unfold generateAnchor
  calc (collapseWs ((trim lineText).take maxLength)).length
      ≤ ((trim lineText).take maxLength).length := collapseWs_length_le _
    _ ≤ maxLength := by simp [List.length_take]

/-- Claim C4: the claimed normalization order (trim, collapse, truncate)
does not match the code.  At input `"a  b"` with `maxLength = 3` the
code truncates the raw trimmed text to `"a  "` and then collapses it to
`"a "`, while the claimed order yields `"a b"`. -/
theorem C4_counterexample :
    generateAnchor "a  b".toList 3 ≠ generateAnchorSpec "a  b".toList 3 := by
  decide

/-- Claim C4, amended: `generateAnchor` trims, then truncates to the
first `maxLength` characters, then collapses whitespace runs; this
agrees with the claimed order (trim, collapse, truncate) whenever the
trimmed text fits within `maxLength`, i.e. when no truncation occurs. -/
theorem C4_trim_truncate_collapse (lineText : List Char) (maxLength : Nat)
    (h : (trim lineText).length ≤ maxLength) :
    generateAnchor lineText maxLength = generateAnchorSpec lineText maxLength := by
  unfold generateAnchor generateAnchorSpec
  rw [List.take_of_length_le h,
      List.take_of_length_le (le_trans (collapseWs_length_le _) h)]

/-- Witness for the amended claim C4 at a concrete input. -/
theorem C4_witness :
    (trim "  a  b ".toList).length ≤ 50 ∧
      generateAnchor "  a  b ".toList 50 = generateAnchorSpec "  a  b ".toList 50 :=
  ⟨by decide, C4_trim_truncate_collapse "  a  b ".toList 50 (by decide)⟩

/-- Claim C5: anchor generation is not idempotent in general.  At
`x = "a  b"` with `maxLength = 3` the first application yields `"a "`
(truncation cut inside the whitespace run, leaving a trailing space),
and the second application trims that trailing space away. -/
theorem C5_counterexample :
    generateAnchor (generateAnchor "a  b".toList 3) 3 ≠
      generateAnchor "a  b".toList 3 := by
  decide

/-- Claim C5, amended: anchor normalization is idempotent whenever the
first result carries no leading or trailing whitespace (equivalently,
is fixed by `trim`); in general truncation can leave a trailing space
which the second application strips. -/
theorem C5_idempotent_of_trimmed (x : List Char) (maxLength : Nat)
    (h : trim (generateAnchor x maxLength) = generateAnchor x maxLength) :
    generateAnchor (generateAnchor x maxLength) maxLength =
      generateAnchor x maxLength := by
  have e1 : generateAnchor (generateAnchor x maxLength) maxLength
      = collapseWs ((trim (generateAnchor x maxLength)).take maxLength) := rfl
  rw [e1, h, List.take_of_length_le (generateAnchor_length_le x maxLength)]
  exact collapseWs_of_collapsed _ (collapseWs_collapsed ((trim x).take maxLength))

/-- Witness for the amended claim C5 at a concrete input. -/
theorem C5_witness :
    trim (generateAnchor "ab  c".toList 50) = generateAnchor "ab  c".toList 50 ∧
      generateAnchor (generateAnchor "ab  c".toList 50) 50 =
        generateAnchor "ab  c".toList 50 :=
  ⟨by decide, C5_idempotent_of_trimmed "ab  c".toList 50 (by decide)⟩

/-! ### Similarity scorer (contentAnchorService.ts, calculateSimilarity)

The source fills a `(len1+1) × (len2+1)` dynamic-programming matrix with
`matrix[i][j] = matrix[i-1][j-1]` when the characters agree and
`min(matrix[i-1][j-1]+1, matrix[i][j-1]+1, matrix[i-1][j]+1)` otherwise,
with border `matrix[i][0] = i`, `matrix[0][j] = j`.  `lev s1 s2` is the
corner entry `matrix[len1][len2]`, expressed by the identical recurrence
on suffixes.
-/

/-- Levenshtein distance with unit costs, the recurrence computed by the
source's DP matrix: substitution, insertion and deletion each cost 1. -/
def lev : List Char → List Char → Nat
  | [], ys => ys.length
  | x :: xs, [] => (x :: xs).length
  | x :: xs, y :: ys =>
    if x = y then lev xs ys
    else min (min (lev xs ys + 1) (lev (x :: xs) ys + 1)) (lev xs (y :: ys) + 1)
termination_by xs ys => (xs.length, ys.length)

/-- Transcription of `ContentAnchorService.calculateSimilarity`:
normalized edit-distance similarity, with the source's early returns for
empty inputs and its final `maxLength === 0` guard. -/
def calculateSimilarity (str1 str2 : List Char) : ℚ :=
  let len1 := str1.length
  let len2 := str2.length
  if len1 = 0 then (if len2 = 0 then 1 else 0)
  else if len2 = 0 then 0
  else
    let distance := lev str1 str2
    let maxLength := max len1 len2
    if maxLength = 0 then 1
    else ((maxLength : ℚ) - (distance : ℚ)) / (maxLength : ℚ)

theorem lev_nil_right : ∀ xs : List Char, lev xs [] = xs.length
  | [] => by simp [lev]
  | _ :: _ => by simp [lev]

theorem lev_nil_left (ys : List Char) : lev [] ys = ys.length := by
  simp [lev]

theorem lev_self : ∀ xs : List Char, lev xs xs = 0
  | [] => by simp [lev]
  | x :: xs => by
    rw [show lev (x :: xs) (x :: xs) = lev xs xs by simp [lev]]
    exact lev_self xs

theorem lev_symm : ∀ xs ys : List Char, lev xs ys = lev ys xs
  | [], ys => by rw [lev_nil_left, lev_nil_right]
  | x :: xs, [] => by rw [lev_nil_left, lev_nil_right]
  | x :: xs, y :: ys => by
    have h1 := lev_symm xs ys
    have h2 := lev_symm (x :: xs) ys
    have h3 := lev_symm xs (y :: ys)
    by_cases hxy : x = y
    · subst hxy
      simp only [lev, if_pos rfl]
      exact h1
    · have hyx : ¬ y = x := fun h => hxy h.symm
      simp only [lev, if_neg hxy, if_neg hyx]
      rw [h1, h2, h3]
      omega
termination_by xs ys => (xs.length, ys.length)

theorem lev_le_max : ∀ xs ys : List Char, lev xs ys ≤ max xs.length ys.length
  | [], ys => by rw [lev_nil_left]; exact le_max_right _ _
  | x :: xs, [] => by rw [lev_nil_right]; exact le_max_left _ _
  | x :: xs, y :: ys => by
    have h1 := lev_le_max xs ys
    by_cases hxy : x = y
    · simp only [lev, if_pos hxy]
      calc lev xs ys ≤ max xs.length ys.length := h1
        _ ≤ max (x :: xs).length (y :: ys).length := by
            simp only [List.length_cons]; omega
    · simp only [lev, if_neg hxy]
      have : min (min (lev xs ys + 1) (lev (x :: xs) ys + 1))
          (lev xs (y :: ys) + 1) ≤ lev xs ys + 1 := by omega
      calc min (min (lev xs ys + 1) (lev (x :: xs) ys + 1))
            (lev xs (y :: ys) + 1) ≤ lev xs ys + 1 := this
        _ ≤ max xs.length ys.length + 1 := by omega
        _ ≤ max (x :: xs).length (y :: ys).length := by
            simp only [List.length_cons]; omega
termination_by xs ys => (xs.length, ys.length)

/-- Claim C7: the similarity function returns a value in `[0,1]`; it is
`1` when both strings are empty and `0` when exactly one is empty; it is
symmetric; and every string has similarity `1` with itself. -/
theorem C7_similarity_properties (a b : List Char) :
    (0 ≤ calculateSimilarity a b ∧ calculateSimilarity a b ≤ 1) ∧
      (a = [] ∧ b = [] → calculateSimilarity a b = 1) ∧
      ((a = [] ∧ b ≠ []) ∨ (a ≠ [] ∧ b = []) → calculateSimilarity a b = 0) ∧
      calculateSimilarity a b = calculateSimilarity b a ∧
      calculateSimilarity a a = 1 := by
  have key : ∀ x y : List Char,
      0 ≤ calculateSimilarity x y ∧ calculateSimilarity x y ≤ 1 := by
    intro x y
    unfold calculateSimilarity
    by_cases hx : x.length = 0
    · by_cases hy : y.length = 0 <;> simp [hx, hy]
    · by_cases hy : y.length = 0
      · simp [hx, hy]
      · have hmax : ¬ (max x.length y.length = 0) := by omega
        simp only [hx, hy, hmax, if_neg, if_false]
        have hle : ((lev x y : ℕ) : ℚ) ≤ ((max x.length y.length : ℕ) : ℚ) :=
          Nat.cast_le.mpr (lev_le_max x y)
        have hpos : (0 : ℚ) < ((max x.length y.length : ℕ) : ℚ) :=
          Nat.cast_pos.mpr (Nat.pos_of_ne_zero hmax)
        constructor
        · apply div_nonneg (by linarith) (le_of_lt hpos)
        · rw [div_le_one hpos]
          have h0 : (0 : ℚ) ≤ ((lev x y : ℕ) : ℚ) := Nat.cast_nonneg _
          linarith
  have hself : ∀ x : List Char, calculateSimilarity x x = 1 := by
    intro x
    unfold calculateSimilarity
    by_cases hx : x.length = 0
    · simp [hx]
    · have hmax : ¬ (max x.length x.length = 0) := by omega
      simp only [hx, hmax, if_neg, if_false]
      rw [lev_self]
      have hpos : (0 : ℚ) < (max x.length x.length : ℚ) := by
        exact_mod_cast Nat.pos_of_ne_zero hmax
      field_simp
  refine ⟨key a b, ?_, ?_, ?_, hself a⟩
  · rintro ⟨ha, hb⟩
    subst ha; subst hb
    rfl
  · rintro (⟨ha, hb⟩ | ⟨ha, hb⟩)
    · subst ha
      have : b.length ≠ 0 := by simpa using hb
      simp [calculateSimilarity, this]
    · subst hb
      have : a.length ≠ 0 := by simpa using ha
      simp [calculateSimilarity, this]
  · unfold calculateSimilarity
    by_cases hx : a.length = 0 <;> by_cases hy : b.length = 0
    · simp [hx, hy]
    · simp [hx, hy]
    · simp [hx, hy]
    · have hmax : ¬ (max a.length b.length = 0) := by omega
      have hmax2 : ¬ (max b.length a.length = 0) := by omega
      simp only [hx, hy, hmax, hmax2, if_neg, if_false]
      rw [lev_symm, Nat.max_comm]

/-! ### Data model

The `Bookmark` interface (models/bookmark.ts): optional fields are
`Option`s; the source tests `trackingEnabled !== false` and
`lineNumber !== undefined`, and the falsy checks `!bookmark.contentAnchor`
and `!bookmark.lineNumber` treat the empty string and the line number 0
like `undefined`.
-/

structure Bookmark where
  id : String
  filePath : String
  lineNumber : Option Nat
  contentAnchor : Option (List Char)
  lastKnownContent : Option (List Char)
  trackingEnabled : Option Bool
deriving DecidableEq

/-- A text document, as the relocation search reads it: the list of its
lines (0-based index), accessed through `lineCount` and `lineAt`. -/
structure Document where
  lines : List (List Char)
deriving DecidableEq

def Document.lineCount (d : Document) : Nat := d.lines.length

def Document.lineAt (d : Document) (i : Nat) : List Char := d.lines.getD i []

/-! ### Relocation search (contentAnchorService.ts) -/

/-- The fixed relocation window half-width (`const searchWindow = 20`). -/
def searchWindow : Nat := 20

/-- Transcription of `getSearchRange`: 1-based window bounds, clamped.
(The source computes `originalLine - searchWindow` over JS numbers and
clamps with `max(1, …)`; truncated Nat subtraction followed by
`max 1 _` yields the same value.) -/
def getSearchRange (originalLine totalLines : Nat) : Nat × Nat :=
  (max 1 (originalLine - searchWindow), min totalLines (originalLine + searchWindow))

/-- The 1-based line numbers the search scans, in ascending order:
`rg.1, rg.1 + 1, …, rg.2`. -/
def searchLines (rg : Nat × Nat) : List Nat :=
  List.range' rg.1 (rg.2 + 1 - rg.1)

/-- Transcription of `findExactMatch`: scan the window in ascending
order, return the first 1-based line whose generated anchor equals the
stored anchor.  The `lineNum - 1 < lineCount` test is the source's
bounds guard (`lineIndex >= 0` is vacuous over `Nat`). -/
def findExactMatch (d : Document) (maxLength : Nat) (anchor : List Char)
    (rg : Nat × Nat) : Option Nat :=
  (searchLines rg).find? fun lineNum =>
    decide (lineNum - 1 < d.lineCount ∧
      generateAnchor (d.lineAt (lineNum - 1)) maxLength = anchor)

/-- One iteration of the `findFuzzyMatch` loop: keep the best
`(lineNumber, confidence)` seen so far, replacing only on a strictly
greater confidence. -/
def fuzzyStep (d : Document) (maxLength : Nat) (anchor : List Char)
    (best : Option Nat × ℚ) (lineNum : Nat) : Option Nat × ℚ :=
  if lineNum - 1 < d.lineCount then
    let confidence :=
      calculateSimilarity anchor (generateAnchor (d.lineAt (lineNum - 1)) maxLength)
    if best.2 < confidence then (some lineNum, confidence) else best
  else best

/-- Transcription of `findFuzzyMatch`: fold over the window starting
from `(null, 0)`. -/
def findFuzzyMatch (d : Document) (maxLength : Nat) (anchor : List Char)
    (rg : Nat × Nat) : Option Nat × ℚ :=
  (searchLines rg).foldl (fuzzyStep d maxLength anchor) (none, 0)

inductive RelocMethod where
  | exactM
  | fuzzyM
  | failedM
deriving DecidableEq

/-- The `RelocationResult` interface: `method` is one of
`exact | fuzzy | failed`. -/
structure RelocationResult where
  success : Bool
  newLineNumber : Option Nat
  confidence : ℚ
  method : RelocMethod
deriving DecidableEq

/-- The body of `relocateByAnchor` after the falsy guard: the exact
pass, then the fuzzy pass against the fixed `0.8` threshold
(`fuzzyMatch.lineNumber !== null && fuzzyMatch.confidence > 0.8`). -/
def relocateScan (d : Document) (maxLength : Nat) (anchor : List Char)
    (ln : Nat) : RelocationResult :=
  match findExactMatch d maxLength anchor (getSearchRange ln d.lineCount) with
  | some m => ⟨true, some m, 1, RelocMethod.exactM⟩
  | none =>
    let fz := findFuzzyMatch d maxLength anchor (getSearchRange ln d.lineCount)
    if fz.1 ≠ none ∧ (4 / 5 : ℚ) < fz.2 then ⟨true, fz.1, fz.2, RelocMethod.fuzzyM⟩
    else ⟨false, none, fz.2, RelocMethod.failedM⟩

/-- Transcription of `ContentAnchorService.relocateByAnchor` (its pure
content): the falsy guard on `contentAnchor` and `lineNumber`
(`!bookmark.contentAnchor || !bookmark.lineNumber`), then the scan. -/
def relocateByAnchor (d : Document) (maxLength : Nat) (b : Bookmark) :
    RelocationResult :=
  match b.contentAnchor, b.lineNumber with
  | some anchor, some ln =>
    if anchor = [] ∨ ln = 0 then ⟨false, none, 0, RelocMethod.failedM⟩
    else relocateScan d maxLength anchor ln
  | _, _ => ⟨false, none, 0, RelocMethod.failedM⟩

/-! Spec-side vocabulary for stating claim C3. -/

/-- The window of 1-based lines the claim describes:
`lineNumber - 20 .. lineNumber + 20`, clamped to the document. -/
def windowLines (ln totalLines : Nat) : List Nat :=
  searchLines (getSearchRange ln totalLines)

/-- Line `lineNum` is in the document and its generated anchor equals
the stored anchor. -/
def anchorMatchesAt (d : Document) (maxLength : Nat) (anchor : List Char)
    (lineNum : Nat) : Prop :=
  lineNum - 1 < d.lineCount ∧
    generateAnchor (d.lineAt (lineNum - 1)) maxLength = anchor

/-- The similarity the fuzzy pass assigns to a candidate line. -/
def simAt (d : Document) (maxLength : Nat) (anchor : List Char)
    (lineNum : Nat) : ℚ :=
  calculateSimilarity anchor (generateAnchor (d.lineAt (lineNum - 1)) maxLength)

/-- The maximum fuzzy similarity over the (valid lines of the) window,
0 when the window is empty. -/
def bestFuzzyScore (d : Document) (maxLength : Nat) (anchor : List Char)
    (ln : Nat) : ℚ :=
  (windowLines ln d.lineCount).foldl
    (fun acc k => if k - 1 < d.lineCount then max acc (simAt d maxLength anchor k) else acc)
    0

/-! Lemmas about the exact pass. -/

theorem searchLines_pairwise (rg : Nat × Nat) :
    (searchLines rg).Pairwise (· < ·) := by
  unfold searchLines
  exact List.pairwise_lt_range' _ _ 1 (by omega)

theorem find?_some_split {α : Type} (p : α → Bool) :
    ∀ (l : List α) (a : α), l.find? p = some a →
      p a = true ∧ ∃ l₁ l₂, l = l₁ ++ a :: l₂ ∧ ∀ x ∈ l₁, p x = false
  | [], a => by simp
  | b :: l, a => by
    intro h
    by_cases hb : p b
    · rw [List.find?_cons_of_pos _ hb] at h
      obtain rfl : b = a := by injection h
      exact ⟨hb, [], l, rfl, by simp⟩
    · rw [List.find?_cons_of_neg _ (by simpa using hb)] at h
      obtain ⟨ha, l₁, l₂, rfl, hl₁⟩ := find?_some_split p l a h
      refine ⟨ha, b :: l₁, l₂, rfl, ?_⟩
      intro x hx
      rcases List.mem_cons.mp hx with rfl | hx
      · simpa using hb
      · exact hl₁ x hx

theorem findExactMatch_eq_none_iff (d : Document) (maxLength : Nat)
    (anchor : List Char) (rg : Nat × Nat) :
    findExactMatch d maxLength anchor rg = none ↔
      ∀ k ∈ searchLines rg, ¬ anchorMatchesAt d maxLength anchor k := by
  unfold findExactMatch anchorMatchesAt
  rw [List.find?_eq_none]
  simp only [decide_eq_true_eq]

theorem findExactMatch_some_spec (d : Document) (maxLength : Nat)
    (anchor : List Char) (rg : Nat × Nat) (k₀ : Nat)
    (h : findExactMatch d maxLength anchor rg = some k₀) :
    k₀ ∈ searchLines rg ∧ anchorMatchesAt d maxLength anchor k₀ ∧
      ∀ k ∈ searchLines rg, k < k₀ → ¬ anchorMatchesAt d maxLength anchor k := by
  unfold findExactMatch at h
  unfold anchorMatchesAt
  obtain ⟨hp, l₁, l₂, hsplit, hl₁⟩ := find?_some_split _ _ _ h
  have hmem : k₀ ∈ searchLines rg := by rw [hsplit]; simp
  have hpw := searchLines_pairwise rg
  rw [hsplit] at hpw
  rw [List.pairwise_append] at hpw
  obtain ⟨-, hpw2, hcross⟩ := hpw
  refine ⟨hmem, of_decide_eq_true hp, ?_⟩
  intro k hk hlt hm
  rw [hsplit] at hk
  rcases List.mem_append.mp hk with hk | hk
  · have := hl₁ k hk
    rw [decide_eq_false_iff_not] at this
    exact this hm
  · rcases List.mem_cons.mp hk with rfl | hk
    · omega
    · have := (List.pairwise_cons.mp hpw2).1 k hk
      omega

/-! Lemmas about the fuzzy pass. -/

theorem fuzzyFold_snd (d : Document) (maxLength : Nat) (anchor : List Char) :
    ∀ (l : List Nat) (best : Option Nat × ℚ),
      (l.foldl (fuzzyStep d maxLength anchor) best).2 =
        l.foldl
          (fun acc k => if k - 1 < d.lineCount then max acc (simAt d maxLength anchor k) else acc)
          best.2
  | [], best => rfl
  | k :: l, best => by
    rw [List.foldl_cons, List.foldl_cons, fuzzyFold_snd d maxLength anchor l]
    congr 1
    unfold fuzzyStep simAt
    by_cases hv : k - 1 < d.lineCount
    · simp only [hv, if_pos]
      by_cases himp :
          best.2 < calculateSimilarity anchor (generateAnchor (d.lineAt (k - 1)) maxLength)
      · rw [if_pos himp]
        exact (max_eq_right (le_of_lt himp)).symm
      · rw [if_neg himp]
        exact (max_eq_left (not_lt.mp himp)).symm
    · simp [hv]

theorem fuzzyFold_fst (d : Document) (maxLength : Nat) (anchor : List Char) :
    ∀ (l : List Nat) (best : Option Nat × ℚ),
      l.foldl (fuzzyStep d maxLength anchor) best = best ∨
        ∃ k ∈ l, k - 1 < d.lineCount ∧
          l.foldl (fuzzyStep d maxLength anchor) best =
            (some k, simAt d maxLength anchor k)
  | [], best => Or.inl rfl
  | k :: l, best => by
    rw [List.foldl_cons]
    by_cases hv : k - 1 < d.lineCount
    · by_cases himp :
          best.2 < calculateSimilarity anchor (generateAnchor (d.lineAt (k - 1)) maxLength)
      · have hstep : fuzzyStep d maxLength anchor best k =
            (some k, simAt d maxLength anchor k) := by
          unfold fuzzyStep simAt
          simp [hv, himp]
        rw [hstep]
        rcases fuzzyFold_fst d maxLength anchor l (some k, simAt d maxLength anchor k) with
          h | ⟨k', hk', hv', h⟩
        · exact Or.inr ⟨k, by simp, hv, h⟩
        · exact Or.inr ⟨k', by simp [hk'], hv', h⟩
      · have hstep : fuzzyStep d maxLength anchor best k = best := by
          unfold fuzzyStep
          simp [hv, himp]
        rw [hstep]
        rcases fuzzyFold_fst d maxLength anchor l best with h | ⟨k', hk', hv', h⟩
        · exact Or.inl h
        · exact Or.inr ⟨k', by simp [hk'], hv', h⟩
    · have hstep : fuzzyStep d maxLength anchor best k = best := by
        unfold fuzzyStep
        simp [hv]
      rw [hstep]
      rcases fuzzyFold_fst d maxLength anchor l best with h | ⟨k', hk', hv', h⟩
      · exact Or.inl h
      · exact Or.inr ⟨k', by simp [hk'], hv', h⟩

theorem findFuzzyMatch_snd (d : Document) (maxLength : Nat) (anchor : List Char)
    (ln : Nat) :
    (findFuzzyMatch d maxLength anchor (getSearchRange ln d.lineCount)).2 =
      bestFuzzyScore d maxLength anchor ln := by
  unfold findFuzzyMatch bestFuzzyScore windowLines
  rw [fuzzyFold_snd]

theorem relocateScan_of_some (d : Document) (maxLength : Nat)
    (anchor : List Char) (ln m : Nat)
    (h : findExactMatch d maxLength anchor (getSearchRange ln d.lineCount) = some m) :
    relocateScan d maxLength anchor ln = ⟨true, some m, 1, RelocMethod.exactM⟩ := by
  unfold relocateScan
  rw [h]

theorem relocateScan_of_none (d : Document) (maxLength : Nat)
    (anchor : List Char) (ln : Nat)
    (h : findExactMatch d maxLength anchor (getSearchRange ln d.lineCount) = none) :
    relocateScan d maxLength anchor ln =
      (let fz := findFuzzyMatch d maxLength anchor (getSearchRange ln d.lineCount)
       if fz.1 ≠ none ∧ (4 / 5 : ℚ) < fz.2 then
         ⟨true, fz.1, fz.2, RelocMethod.fuzzyM⟩
       else ⟨false, none, fz.2, RelocMethod.failedM⟩) := by
  unfold relocateScan
  rw [h]

instance anchorMatchesAtDecidable (d : Document) (maxLength : Nat)
    (anchor : List Char) (lineNum : Nat) :
    Decidable (anchorMatchesAt d maxLength anchor lineNum) := by
  unfold anchorMatchesAt
  infer_instance

/-- Claim C3: for a marker with a stored (non-falsy) anchor and line
number, `relocateByAnchor` scans the window in ascending order and
returns the first exact anchor match with confidence 1 and method
`exact`; only if no exact match exists does it take the maximum fuzzy
similarity over the window, succeeding with method `fuzzy` exactly when
that maximum strictly exceeds `0.8`, and otherwise failing with the best
fuzzy score as confidence. -/
theorem C3_relocate_characterization (d : Document) (maxLength : Nat)
    (b : Bookmark) (anchor : List Char) (ln : Nat)
    (ha : b.contentAnchor = some anchor) (hane : anchor ≠ [])
    (hl : b.lineNumber = some ln) (hln : ln ≠ 0) :
    ((∃ k ∈ windowLines ln d.lineCount, anchorMatchesAt d maxLength anchor k) →
      ∃ k₀ ∈ windowLines ln d.lineCount,
        anchorMatchesAt d maxLength anchor k₀ ∧
        (∀ k ∈ windowLines ln d.lineCount, k < k₀ →
          ¬ anchorMatchesAt d maxLength anchor k) ∧
        relocateByAnchor d maxLength b =
          ⟨true, some k₀, 1, RelocMethod.exactM⟩) ∧
    ((∀ k ∈ windowLines ln d.lineCount, ¬ anchorMatchesAt d maxLength anchor k) →
      (((4 / 5 : ℚ) < bestFuzzyScore d maxLength anchor ln →
        ∃ k₁ ∈ windowLines ln d.lineCount, k₁ - 1 < d.lineCount ∧
          simAt d maxLength anchor k₁ = bestFuzzyScore d maxLength anchor ln ∧
          relocateByAnchor d maxLength b =
            ⟨true, some k₁, bestFuzzyScore d maxLength anchor ln, RelocMethod.fuzzyM⟩) ∧
      (¬ ((4 / 5 : ℚ) < bestFuzzyScore d maxLength anchor ln) →
        relocateByAnchor d maxLength b =
          ⟨false, none, bestFuzzyScore d maxLength anchor ln, RelocMethod.failedM⟩))) := by
  have hguard : ¬ (anchor = [] ∨ ln = 0) := by
    rintro (h | h)
    · exact hane h
    · exact hln h
  have hrel : relocateByAnchor d maxLength b = relocateScan d maxLength anchor ln := by
    unfold relocateByAnchor
    rw [ha, hl]
    exact if_neg hguard
  constructor
  · intro hex
    have hne : findExactMatch d maxLength anchor (getSearchRange ln d.lineCount) ≠ none := by
      intro hnone
      rw [findExactMatch_eq_none_iff] at hnone
      obtain ⟨k, hk, hm⟩ := hex
      exact hnone k hk hm
    obtain ⟨k₀, hk₀⟩ := Option.ne_none_iff_exists.mp hne
    obtain ⟨hmem, hmatch, hfirst⟩ :=
      findExactMatch_some_spec d maxLength anchor (getSearchRange ln d.lineCount) k₀ hk₀.symm
    refine ⟨k₀, hmem, hmatch, hfirst, ?_⟩
    rw [hrel, relocateScan_of_some d maxLength anchor ln k₀ hk₀.symm]
  · intro hnoex
    have hnone : findExactMatch d maxLength anchor (getSearchRange ln d.lineCount) = none := by
      rw [findExactMatch_eq_none_iff]
      exact hnoex
    have hsnd := findFuzzyMatch_snd d maxLength anchor ln
    constructor
    · intro hthr
      rcases fuzzyFold_fst d maxLength anchor
          (searchLines (getSearchRange ln d.lineCount)) (none, 0) with hid | hat
      · exfalso
        have h0 : bestFuzzyScore d maxLength anchor ln = 0 := by
          rw [← hsnd]
          unfold findFuzzyMatch
          rw [hid]
        rw [h0] at hthr
        norm_num at hthr
      · obtain ⟨k₁, hk₁, hv₁, hfz⟩ := hat
        have hfz' : findFuzzyMatch d maxLength anchor (getSearchRange ln d.lineCount) =
            (some k₁, simAt d maxLength anchor k₁) := hfz
        have hsim : simAt d maxLength anchor k₁ = bestFuzzyScore d maxLength anchor ln := by
          rw [← hsnd, hfz']
        refine ⟨k₁, hk₁, hv₁, hsim, ?_⟩
        rw [hrel, relocateScan_of_none d maxLength anchor ln hnone]
        simp only [hfz']
        rw [if_pos ⟨by simp, by rw [hsim]; exact hthr⟩, hsim]
    · intro hthr
      rw [hrel, relocateScan_of_none d maxLength anchor ln hnone]
      simp only
      rw [if_neg ?hcond, hsnd]
      case hcond =>
        rintro ⟨-, hlt⟩
        rw [hsnd] at hlt
        exact hthr hlt

/-- Concrete document for the claim C3 witness: three lines, the
anchor text sits on line 3. -/
def docW : Document := ⟨["ax".toList, "b".toList, "c".toList]⟩

/-- Concrete bookmark for the claim C3 witness. -/
def bmW : Bookmark :=
  ⟨"bm3", "f.ts", some 2, some "c".toList, none, some true⟩

/-- Witness for claim C3: at a concrete document and marker the exact
pass finds line 3 first. -/
theorem C3_witness :
    ∃ k₀ ∈ windowLines 2 docW.lineCount,
      anchorMatchesAt docW 50 "c".toList k₀ ∧
      (∀ k ∈ windowLines 2 docW.lineCount, k < k₀ →
        ¬ anchorMatchesAt docW 50 "c".toList k) ∧
      relocateByAnchor docW 50 bmW =
        ⟨true, some k₀, 1, RelocMethod.exactM⟩ :=
  (C3_relocate_characterization docW 50 bmW "c".toList 2 rfl (by decide) rfl
    (by decide)).1 (by decide)

/-- Claim C10: a marker with a missing or empty stored anchor, or a
missing or zero line number, makes `relocateByAnchor` return the failed
result immediately, independently of the document (the source returns
before touching the document; the embedding, like the source function,
performs no mutation of the marker or of the stored collection). -/
theorem C10_relocate_falsy_guard (d d2 : Document) (maxLength : Nat)
    (b : Bookmark)
    (h : b.contentAnchor = none ∨ b.contentAnchor = some [] ∨
      b.lineNumber = none ∨ b.lineNumber = some 0) :
    relocateByAnchor d maxLength b = ⟨false, none, 0, RelocMethod.failedM⟩ ∧
      relocateByAnchor d maxLength b = relocateByAnchor d2 maxLength b := by
  have key : ∀ d3 : Document,
      relocateByAnchor d3 maxLength b = ⟨false, none, 0, RelocMethod.failedM⟩ := by
    intro d3
    unfold relocateByAnchor
    rcases h with h | h | h | h
    · rw [h]
    · rw [h]
      cases hl : b.lineNumber with
      | none => rfl
      | some ln => simp
    · rw [h]
      cases hc : b.contentAnchor with
      | none => rfl
      | some a => rfl
    · rw [h]
      cases hc : b.contentAnchor with
      | none => rfl
      | some a => simp
  rw [key d, key d2]
  exact ⟨rfl, rfl⟩

/-- Witness for claim C10 at a concrete marker with no stored anchor. -/
theorem C10_witness :
    relocateByAnchor docW 50 ⟨"bm0", "f.ts", some 3, none, none, some true⟩ =
        ⟨false, none, 0, RelocMethod.failedM⟩ ∧
      relocateByAnchor docW 50 ⟨"bm0", "f.ts", some 3, none, none, some true⟩ =
        relocateByAnchor ⟨[]⟩ 50 ⟨"bm0", "f.ts", some 3, none, none, some true⟩ :=
  C10_relocate_falsy_guard docW ⟨[]⟩ 50
    ⟨"bm0", "f.ts", some 3, none, none, some true⟩ (Or.inl rfl)

/-! ### Incremental position updater (BookmarkPositionTracker)

`updateBookmarkPositions` sorts the batch bottom-to-top by
`range.start.line`, skips edits with `lineDelta == 0`, and for every
remaining edit walks all bookmarks, skipping those already scheduled for
removal, classifying each against the edit range and applying the
resolution gated by `shouldUpdate && newLineNumber >= 1 &&
newLineNumber !== bookmarkLine`.
-/

structure Position where
  line : Nat
  character : Nat
deriving DecidableEq

/-- A replacement range; `stop` models the source's `range.end`. -/
structure EditRange where
  start : Position
  stop : Position
deriving DecidableEq

/-- One `TextDocumentContentChangeEvent`: the replaced range and the
replacement text. -/
structure ContentChange where
  range : EditRange
  text : List Char
deriving DecidableEq

/-- The source's `(change.text.match(/\n/g) || []).length`. -/
def countNewlines (text : List Char) : Nat :=
  text.countP (· == '\n')

/-- Transcription of `calculateLineDelta`:
`insertedLines - (endLine - startLine)`, over the integers. -/
def calculateLineDelta (change : ContentChange) : Int :=
  (countNewlines change.text : Int) -
    ((change.range.stop.line : Int) - (change.range.start.line : Int))

/-- Transcription of the classification cascade of
`updateBookmarkPositions` for one bookmark line against one edit:
returns `(shouldUpdate, shouldRemove, newLineNumber)`.  `bmZero` is the
0-based bookmark line (an `Int`, as in the JS arithmetic). -/
def stepResolve (change : ContentChange) (lineDelta : Int)
    (bookmarkLine : Nat) : Bool × Bool × Int :=
  let bmZero : Int := (bookmarkLine : Int) - 1
  if bmZero > (change.range.stop.line : Int) then
    (true, false, (bookmarkLine : Int) + lineDelta)
  else if bmZero ≥ (change.range.start.line : Int) ∧
      bmZero ≤ (change.range.stop.line : Int) then
    if lineDelta > 0 ∧ change.text.contains '\n' then
      if change.range.start.line = change.range.stop.line then
        if change.range.start.character = 0 then
          (true, false, (bookmarkLine : Int) + lineDelta)
        else (false, false, (bookmarkLine : Int))
      else
        if change.range.start.character = 0 ∧
            (change.range.start.line : Int) = bmZero then
          (true, false, (bookmarkLine : Int) + lineDelta)
        else (false, false, (bookmarkLine : Int))
    else if lineDelta < 0 then
      if (change.range.start.character = 0 ∧
            (change.range.stop.character = 0 ∨
              change.range.stop.line > change.range.start.line)) ∧
          (bmZero ≥ (change.range.start.line : Int) ∧
            bmZero < (change.range.stop.line : Int)) then
        (false, true, (bookmarkLine : Int))
      else (true, false, max 1 ((change.range.start.line : Int) + 1))
    else (false, false, (bookmarkLine : Int))
  else (false, false, (bookmarkLine : Int))

inductive Outcome where
  | keepIt
  | removeIt
  | updateIt (b2 : Bookmark)
deriving DecidableEq

/-- The effect of the forEach body on one (not yet removed) bookmark:
flag for removal, or mutate `lineNumber` and push onto the updates list
when the gate passes, or leave the bookmark alone.  A bookmark with no
line number is left alone (the `lineNumber !== undefined` guard). -/
def outcomeCore (change : ContentChange) (lineDelta : Int) (b : Bookmark) :
    Outcome :=
  match b.lineNumber with
  | none => Outcome.keepIt
  | some bookmarkLine =>
    let r := stepResolve change lineDelta bookmarkLine
    if r.2.1 then Outcome.removeIt
    else if r.1 ∧ 1 ≤ r.2.2 ∧ r.2.2 ≠ (bookmarkLine : Int) then
      Outcome.updateIt { b with lineNumber := some r.2.2.toNat }
    else Outcome.keepIt

/-- The accumulating state of one `updateBookmarkPositions` run:
the bookmark objects (mutated in place by the source), the ids pushed
onto `updatedBookmarks`, and the id set `removedBookmarkIds` (a list in
insertion order; an id is only added when absent, as with `Set.add`
behind the early-return guard). -/
structure TrackState where
  bookmarks : List Bookmark
  updates : List String
  removals : List String
deriving DecidableEq

/-- One iteration of the inner forEach: a bookmark whose id is already
in `removedBookmarkIds` is skipped; otherwise its outcome is applied. -/
def processBookmark (change : ContentChange) (lineDelta : Int)
    (st : TrackState) (b : Bookmark) : TrackState :=
  if b.id ∈ st.removals then
    { st with bookmarks := st.bookmarks ++ [b] }
  else
    match outcomeCore change lineDelta b with
    | Outcome.keepIt => { st with bookmarks := st.bookmarks ++ [b] }
    | Outcome.removeIt =>
      { st with bookmarks := st.bookmarks ++ [b],
                removals := st.removals ++ [b.id] }
    | Outcome.updateIt b2 =>
      { st with bookmarks := st.bookmarks ++ [b2],
                updates := st.updates ++ [b.id] }

/-- One iteration of the outer loop over the sorted changes: edits with
`lineDelta == 0` are skipped wholesale. -/
def processChange (st : TrackState) (change : ContentChange) : TrackState :=
  if calculateLineDelta change = 0 then st
  else
    st.bookmarks.foldl (processBookmark change (calculateLineDelta change))
      { bookmarks := [], updates := st.updates, removals := st.removals }

def processChanges (changes : List ContentChange) (st : TrackState) :
    TrackState :=
  changes.foldl processChange st

/-- The descending comparator of
`[...changes].sort((a, b) => b.range.start.line - a.range.start.line)`:
`a` sorts before `b2` when its start line is at least as large. -/
def changeBefore (a b2 : ContentChange) : Prop :=
  b2.range.start.line ≤ a.range.start.line

instance changeBeforeDecidable : DecidableRel changeBefore := fun a b2 => by
  unfold changeBefore
  infer_instance

instance changeBeforeTotal : IsTotal ContentChange changeBefore :=
  ⟨fun a b2 => le_total b2.range.start.line a.range.start.line⟩

instance changeBeforeTrans : IsTrans ContentChange changeBefore :=
  ⟨fun a b2 c h1 h2 => le_trans h2 h1⟩

/-- Transcription of `updateBookmarkPositions`: stable sort of the
changes bottom-to-top (descending `range.start.line`, ties keeping
arrival order, as V8's stable sort does), then the nested loops. -/
def updateBookmarkPositions (changes : List ContentChange)
    (bookmarks : List Bookmark) : TrackState :=
  processChanges (changes.insertionSort changeBefore) ⟨bookmarks, [], []⟩

/-- The per-file filter in `onDocumentChanged`: bookmarks of this file
with tracking not disabled and a known line number. -/
def fileBookmarks (filePath : String) (allBookmarks : List Bookmark) :
    List Bookmark :=
  allBookmarks.filter fun b =>
    b.filePath == filePath && b.trackingEnabled != some false &&
      b.lineNumber != none

/-- The enabled path of `onDocumentChanged`: filter the file's tracked
bookmarks, then update their positions against the change batch. -/
def onDocumentChangedCore (filePath : String) (changes : List ContentChange)
    (allBookmarks : List Bookmark) : TrackState :=
  updateBookmarkPositions changes (fileBookmarks filePath allBookmarks)

/-! Geometric vocabulary for the batch hypotheses of claims C1 and C6. -/

/-- Lexicographic comparison of positions: `p` at or before `q`. -/
def posLe (p q : Position) : Prop :=
  p.line < q.line ∨ (p.line = q.line ∧ p.character ≤ q.character)

/-- A well-formed replacement range: start at or before end. -/
def rangeWf (r : EditRange) : Prop := posLe r.start r.stop

/-- Two edits do not overlap: one ends at or before the other starts. -/
def nonOverlapping (a b2 : ContentChange) : Prop :=
  posLe a.range.stop b2.range.start ∨ posLe b2.range.stop a.range.start

instance posLeDecidable (p q : Position) : Decidable (posLe p q) := by
  unfold posLe
  infer_instance

instance rangeWfDecidable (r : EditRange) : Decidable (rangeWf r) := by
  unfold rangeWf
  infer_instance

instance nonOverlappingDecidable (a b2 : ContentChange) :
    Decidable (nonOverlapping a b2) := by
  unfold nonOverlapping
  infer_instance

/-! Decomposition of one `processBookmark` step. -/

/-- The outcome actually applied: a bookmark already scheduled for
removal is skipped, which has the same effect as keeping it. -/
def effOutcome (change : ContentChange) (lineDelta : Int)
    (removals : List String) (b : Bookmark) : Outcome :=
  if b.id ∈ removals then Outcome.keepIt else outcomeCore change lineDelta b

/-- The bookmark object as it stands after an outcome. -/
def outcomeBookmark (b : Bookmark) : Outcome → Bookmark
  | Outcome.updateIt b2 => b2
  | _ => b

/-- What an outcome appends to the updates list. -/
def updPush (b : Bookmark) : Outcome → List String
  | Outcome.updateIt _ => [b.id]
  | _ => []

/-- What an outcome appends to the removals list. -/
def remPush (b : Bookmark) : Outcome → List String
  | Outcome.removeIt => [b.id]
  | _ => []

theorem processBookmark_eq (change : ContentChange) (lineDelta : Int)
    (st : TrackState) (b : Bookmark) :
    processBookmark change lineDelta st b =
      ⟨st.bookmarks ++ [outcomeBookmark b (effOutcome change lineDelta st.removals b)],
       st.updates ++ updPush b (effOutcome change lineDelta st.removals b),
       st.removals ++ remPush b (effOutcome change lineDelta st.removals b)⟩ := by
  unfold processBookmark effOutcome
  by_cases h : b.id ∈ st.removals
  · simp [h, outcomeBookmark, updPush, remPush]
  · simp only [h, if_false, if_neg, not_false_iff]
    cases outcomeCore change lineDelta b <;>
      simp [outcomeBookmark, updPush, remPush]

theorem outcomeCore_update_id (change : ContentChange) (lineDelta : Int)
    (b b2 : Bookmark) (h : outcomeCore change lineDelta b = Outcome.updateIt b2) :
    b2.id = b.id := by
  unfold outcomeCore at h
  cases hl : b.lineNumber with
  | none => rw [hl] at h; cases h
  | some bookmarkLine =>
    rw [hl] at h
    simp only at h
    split_ifs at h with h1 h2
    all_goals cases h
    all_goals rfl

theorem outcomeBookmark_id (change : ContentChange) (lineDelta : Int)
    (removals : List String) (b : Bookmark) :
    (outcomeBookmark b (effOutcome change lineDelta removals b)).id = b.id := by
  unfold effOutcome
  by_cases h : b.id ∈ removals
  · simp [h, outcomeBookmark]
  · simp only [h, if_false, if_neg, not_false_iff]
    cases ho : outcomeCore change lineDelta b with
    | keepIt => rfl
    | removeIt => rfl
    | updateIt b2 => exact outcomeCore_update_id change lineDelta b b2 ho

/-! Structure lemmas about the inner fold over the bookmark list. -/

theorem foldPB_bookmarks_ids (change : ContentChange) (lineDelta : Int) :
    ∀ (bs : List Bookmark) (st : TrackState),
      ((bs.foldl (processBookmark change lineDelta) st).bookmarks).map Bookmark.id =
        st.bookmarks.map Bookmark.id ++ bs.map Bookmark.id
  | [], st => by simp
  | b :: bs, st => by
    rw [List.foldl_cons, foldPB_bookmarks_ids change lineDelta bs,
      processBookmark_eq]
    simp [outcomeBookmark_id]

theorem foldPB_removals_mono (change : ContentChange) (lineDelta : Int) :
    ∀ (bs : List Bookmark) (st : TrackState) (x : String),
      x ∈ st.removals →
        x ∈ (bs.foldl (processBookmark change lineDelta) st).removals
  | [], st, x => fun h => h
  | b :: bs, st, x => fun h => by
    rw [List.foldl_cons]
    exact foldPB_removals_mono change lineDelta bs _ x
      (by rw [processBookmark_eq]; exact List.mem_append_left _ h)

theorem foldPB_updates_mono (change : ContentChange) (lineDelta : Int) :
    ∀ (bs : List Bookmark) (st : TrackState) (x : String),
      x ∈ st.updates →
        x ∈ (bs.foldl (processBookmark change lineDelta) st).updates
  | [], st, x => fun h => h
  | b :: bs, st, x => fun h => by
    rw [List.foldl_cons]
    exact foldPB_updates_mono change lineDelta bs _ x
      (by rw [processBookmark_eq]; exact List.mem_append_left _ h)

theorem foldPB_removals_mem (change : ContentChange) (lineDelta : Int) :
    ∀ (bs : List Bookmark) (st : TrackState) (x : String),
      x ∈ (bs.foldl (processBookmark change lineDelta) st).removals →
        x ∈ st.removals ∨ x ∈ bs.map Bookmark.id
  | [], st, x => fun h => Or.inl h
  | b :: bs, st, x => fun h => by
    rw [List.foldl_cons] at h
    rcases foldPB_removals_mem change lineDelta bs _ x h with h1 | h1
    · rw [processBookmark_eq] at h1
      rcases List.mem_append.mp h1 with h2 | h2
      · exact Or.inl h2
      · cases heff : effOutcome change lineDelta st.removals b <;>
          rw [heff] at h2 <;> simp only [remPush] at h2
        · cases h2
        · rcases List.mem_singleton.mp h2 with rfl
          exact Or.inr (by simp)
        · cases h2
    · exact Or.inr (List.mem_cons_of_mem _ (by simpa using h1))

theorem foldPB_updates_mem (change : ContentChange) (lineDelta : Int) :
    ∀ (bs : List Bookmark) (st : TrackState) (x : String),
      x ∈ (bs.foldl (processBookmark change lineDelta) st).updates →
        x ∈ st.updates ∨ x ∈ bs.map Bookmark.id
  | [], st, x => fun h => Or.inl h
  | b :: bs, st, x => fun h => by
    rw [List.foldl_cons] at h
    rcases foldPB_updates_mem change lineDelta bs _ x h with h1 | h1
    · rw [processBookmark_eq] at h1
      rcases List.mem_append.mp h1 with h2 | h2
      · exact Or.inl h2
      · cases heff : effOutcome change lineDelta st.removals b <;>
          rw [heff] at h2 <;> simp only [updPush] at h2
        · cases h2
        · cases h2
        · rcases List.mem_singleton.mp h2 with rfl
          exact Or.inr (by simp)
    · exact Or.inr (List.mem_cons_of_mem _ (by simpa using h1))

theorem foldPB_bookmarks_get_left (change : ContentChange) (lineDelta : Int) :
    ∀ (bs : List Bookmark) (st : TrackState) (i : Nat),
      i < st.bookmarks.length →
        (bs.foldl (processBookmark change lineDelta) st).bookmarks[i]? =
          st.bookmarks[i]?
  | [], st, i => fun _ => rfl
  | b :: bs, st, i => fun h => by
    rw [List.foldl_cons,
      foldPB_bookmarks_get_left change lineDelta bs _ i
        (by rw [processBookmark_eq]; simp; omega),
      processBookmark_eq]
    exact List.getElem?_append_left h

theorem mem_remPush {x : String} {b2 : Bookmark} {o : Outcome}
    (h : x ∈ remPush b2 o) : o = Outcome.removeIt ∧ x = b2.id := by
  cases o with
  | keepIt => cases h
  | removeIt => exact ⟨rfl, List.mem_singleton.mp h⟩
  | updateIt b3 => cases h

theorem mem_updPush {x : String} {b2 : Bookmark} {o : Outcome}
    (h : x ∈ updPush b2 o) : (∃ b3, o = Outcome.updateIt b3) ∧ x = b2.id := by
  cases o with
  | keepIt => cases h
  | removeIt => cases h
  | updateIt b3 => exact ⟨⟨b3, rfl⟩, List.mem_singleton.mp h⟩

/-- Pointwise behaviour of the inner fold at a bookmark whose id does
not occur elsewhere: its object evolves by its own outcome, its id
enters the removals exactly when its outcome is removal, and its id is
appended to the updates exactly when its outcome is an update. -/
theorem foldPB_step_at (change : ContentChange) (lineDelta : Int) :
    ∀ (bs : List Bookmark) (st : TrackState) (i : Nat) (b : Bookmark),
      bs[i]? = some b →
      b.id ∉ st.removals →
      (∀ j : Nat, ∀ b2 : Bookmark, bs[j]? = some b2 → j ≠ i → b2.id ≠ b.id) →
      ((bs.foldl (processBookmark change lineDelta) st).bookmarks[st.bookmarks.length + i]? =
          some (outcomeBookmark b (outcomeCore change lineDelta b))) ∧
        (b.id ∈ (bs.foldl (processBookmark change lineDelta) st).removals ↔
          outcomeCore change lineDelta b = Outcome.removeIt) ∧
        (b.id ∈ (bs.foldl (processBookmark change lineDelta) st).updates ↔
          (b.id ∈ st.updates ∨ ∃ b2, outcomeCore change lineDelta b = Outcome.updateIt b2))
  | [], st, i, b => by
    intro hb
    simp at hb
  | b₀ :: bs, st, i, b => by
    intro hb hrem hdist
    cases i with
    | zero =>
      rw [List.getElem?_cons_zero] at hb
      obtain rfl : b₀ = b := by injection hb
      have hnotmem : b₀.id ∉ bs.map Bookmark.id := by
        intro hmem
        obtain ⟨b2, hb2mem, hb2id⟩ := List.mem_map.mp hmem
        obtain ⟨j, hj, hjget⟩ := List.getElem_of_mem hb2mem
        exact hdist (j + 1) b2
          (by rw [List.getElem?_cons_succ, List.getElem?_eq_getElem hj, hjget])
          (by omega) hb2id
      have heff : effOutcome change lineDelta st.removals b₀ =
          outcomeCore change lineDelta b₀ := by
        unfold effOutcome
        rw [if_neg hrem]
      rw [List.foldl_cons, processBookmark_eq, heff]
      refine ⟨?_, ?_, ?_⟩
      · rw [foldPB_bookmarks_get_left change lineDelta bs _ _
          (by simp)]
        simp only [Nat.add_zero]
        exact List.getElem?_concat_length _ _
      · constructor
        · intro h
          rcases foldPB_removals_mem change lineDelta bs _ _ h with h1 | h1
          · simp only [List.mem_append] at h1
            rcases h1 with h1 | h1
            · exact absurd h1 hrem
            · exact (mem_remPush h1).1
          · exact absurd h1 hnotmem
        · intro h
          apply foldPB_removals_mono
          simp only [List.mem_append]
          right
          rw [h]
          simp [remPush]
      · constructor
        · intro h
          rcases foldPB_updates_mem change lineDelta bs _ _ h with h1 | h1
          · simp only [List.mem_append] at h1
            rcases h1 with h1 | h1
            · exact Or.inl h1
            · exact Or.inr (mem_updPush h1).1
          · exact absurd h1 hnotmem
        · intro h
          apply foldPB_updates_mono
          simp only [List.mem_append]
          rcases h with h | ⟨b2, h⟩
          · exact Or.inl h
          · right
            rw [h]
            simp [updPush]
    | succ j =>
      rw [List.getElem?_cons_succ] at hb
      have hid0 : b₀.id ≠ b.id :=
        hdist 0 b₀ (by simp) (by omega)
      have hdist2 : ∀ j2 : Nat, ∀ b2 : Bookmark, bs[j2]? = some b2 → j2 ≠ j →
          b2.id ≠ b.id := fun j2 b2 h hne =>
        hdist (j2 + 1) b2 (by simp [h]) (by omega)
      rw [List.foldl_cons]
      have hrem2 : b.id ∉ (processBookmark change lineDelta st b₀).removals := by
        rw [processBookmark_eq]
        simp only [List.mem_append]
        rintro (h | h)
        · exact hrem h
        · exact hid0 (mem_remPush h).2.symm
      obtain ⟨ih1, ih2, ih3⟩ :=
        foldPB_step_at change lineDelta bs
          (processBookmark change lineDelta st b₀) j b hb hrem2 hdist2
      have hlen : (processBookmark change lineDelta st b₀).bookmarks.length =
          st.bookmarks.length + 1 := by
        rw [processBookmark_eq]
        simp
      refine ⟨?_, ih2, ?_⟩
      · rw [show st.bookmarks.length + (j + 1) =
          (processBookmark change lineDelta st b₀).bookmarks.length + j by omega]
        exact ih1
      · rw [ih3]
        have hupd : b.id ∈ (processBookmark change lineDelta st b₀).updates ↔
            b.id ∈ st.updates := by
          rw [processBookmark_eq]
          simp only [List.mem_append]
          constructor
          · rintro (h | h)
            · exact h
            · exact absurd (mem_updPush h).2.symm hid0
          · exact Or.inl
        rw [hupd]

/-! Lifting the fold lemmas to one processed change. -/

/-- The outcome one change of the sorted batch has on a (not yet
removed) bookmark, the `lineDelta == 0` skip included. -/
def chOutcome (change : ContentChange) (b : Bookmark) : Outcome :=
  if calculateLineDelta change = 0 then Outcome.keepIt
  else outcomeCore change (calculateLineDelta change) b

theorem processChange_ids (st : TrackState) (c : ContentChange) :
    (processChange st c).bookmarks.map Bookmark.id =
      st.bookmarks.map Bookmark.id := by
  unfold processChange
  by_cases h : calculateLineDelta c = 0
  · rw [if_pos h]
  · rw [if_neg h, foldPB_bookmarks_ids]
    simp

theorem processChange_removals_mono (st : TrackState) (c : ContentChange)
    (x : String) (h : x ∈ st.removals) : x ∈ (processChange st c).removals := by
  unfold processChange
  by_cases h0 : calculateLineDelta c = 0
  · rw [if_pos h0]; exact h
  · rw [if_neg h0]
    exact foldPB_removals_mono _ _ _ _ _ h

theorem processChange_updates_mono (st : TrackState) (c : ContentChange)
    (x : String) (h : x ∈ st.updates) : x ∈ (processChange st c).updates := by
  unfold processChange
  by_cases h0 : calculateLineDelta c = 0
  · rw [if_pos h0]; exact h
  · rw [if_neg h0]
    exact foldPB_updates_mono _ _ _ _ _ h

theorem processChange_removals_mem (st : TrackState) (c : ContentChange)
    (x : String) (h : x ∈ (processChange st c).removals) :
    x ∈ st.removals ∨ x ∈ st.bookmarks.map Bookmark.id := by
  unfold processChange at h
  by_cases h0 : calculateLineDelta c = 0
  · rw [if_pos h0] at h; exact Or.inl h
  · rw [if_neg h0] at h
    exact foldPB_removals_mem c (calculateLineDelta c) st.bookmarks
      ⟨[], st.updates, st.removals⟩ x h

theorem processChange_updates_mem (st : TrackState) (c : ContentChange)
    (x : String) (h : x ∈ (processChange st c).updates) :
    x ∈ st.updates ∨ x ∈ st.bookmarks.map Bookmark.id := by
  unfold processChange at h
  by_cases h0 : calculateLineDelta c = 0
  · rw [if_pos h0] at h; exact Or.inl h
  · rw [if_neg h0] at h
    exact foldPB_updates_mem c (calculateLineDelta c) st.bookmarks
      ⟨[], st.updates, st.removals⟩ x h

theorem processChange_at (st : TrackState) (c : ContentChange) (i : Nat)
    (b : Bookmark)
    (hb : st.bookmarks[i]? = some b)
    (hrem : b.id ∉ st.removals)
    (hdist : ∀ j : Nat, ∀ b2 : Bookmark, st.bookmarks[j]? = some b2 → j ≠ i →
      b2.id ≠ b.id) :
    ((processChange st c).bookmarks[i]? =
        some (outcomeBookmark b (chOutcome c b))) ∧
      (b.id ∈ (processChange st c).removals ↔ chOutcome c b = Outcome.removeIt) ∧
      (b.id ∈ (processChange st c).updates ↔
        (b.id ∈ st.updates ∨ ∃ b2, chOutcome c b = Outcome.updateIt b2)) := by
  unfold processChange chOutcome
  by_cases h : calculateLineDelta c = 0
  · rw [if_pos h, if_pos h]
    refine ⟨hb, ?_, ?_⟩
    · constructor
      · intro hmem; exact absurd hmem hrem
      · intro hk; cases hk
    · constructor
      · intro hmem; exact Or.inl hmem
      · rintro (hmem | ⟨b2, hk⟩)
        · exact hmem
        · cases hk
  · rw [if_neg h, if_neg h]
    have hstep := foldPB_step_at c (calculateLineDelta c) st.bookmarks
      ⟨[], st.updates, st.removals⟩ i b hb hrem hdist
    simpa using hstep

/-! Pointwise preservation for bookmarks the change keeps. -/

theorem foldPB_keep_at (change : ContentChange) (lineDelta : Int) :
    ∀ (bs : List Bookmark) (st : TrackState) (i : Nat) (b : Bookmark),
      bs[i]? = some b →
      outcomeCore change lineDelta b = Outcome.keepIt →
      (bs.foldl (processBookmark change lineDelta) st).bookmarks[st.bookmarks.length + i]? =
        some b
  | [], st, i, b => by
    intro hb
    simp at hb
  | b₀ :: bs, st, i, b => by
    intro hb hkeep
    cases i with
    | zero =>
      rw [List.getElem?_cons_zero] at hb
      obtain rfl : b₀ = b := by injection hb
      have heffk : outcomeBookmark b₀ (effOutcome change lineDelta st.removals b₀) = b₀ := by
        unfold effOutcome
        by_cases hmem : b₀.id ∈ st.removals
        · rw [if_pos hmem]; rfl
        · rw [if_neg hmem, hkeep]; rfl
      rw [List.foldl_cons, processBookmark_eq, heffk,
        foldPB_bookmarks_get_left change lineDelta bs _ _ (by simp)]
      simp only [Nat.add_zero]
      exact List.getElem?_concat_length _ _
    | succ j =>
      rw [List.getElem?_cons_succ] at hb
      rw [List.foldl_cons]
      have hlen : (processBookmark change lineDelta st b₀).bookmarks.length =
          st.bookmarks.length + 1 := by
        rw [processBookmark_eq]; simp
      rw [show st.bookmarks.length + (j + 1) =
        (processBookmark change lineDelta st b₀).bookmarks.length + j by omega]
      exact foldPB_keep_at change lineDelta bs _ j b hb hkeep

theorem processChange_keep_at (st : TrackState) (c : ContentChange) (i : Nat)
    (b : Bookmark)
    (hb : st.bookmarks[i]? = some b)
    (hkeep : chOutcome c b = Outcome.keepIt) :
    (processChange st c).bookmarks[i]? = some b := by
  unfold processChange
  unfold chOutcome at hkeep
  by_cases h : calculateLineDelta c = 0
  · rw [if_pos h]; exact hb
  · rw [if_neg h]
    rw [if_neg h] at hkeep
    have := foldPB_keep_at c (calculateLineDelta c) st.bookmarks
      ⟨[], st.updates, st.removals⟩ i b hb hkeep
    simpa using this

/-! Evaluating the cascade in the two regimes of claim C1. -/

theorem posLe_line {p q : Position} (h : posLe p q) : p.line ≤ q.line := by
  rcases h with h | ⟨h, -⟩
  · omega
  · omega

theorem calculateLineDelta_ge (c : ContentChange) :
    (c.range.start.line : Int) - (c.range.stop.line : Int) ≤
      calculateLineDelta c := by
  unfold calculateLineDelta
  have : (0 : Int) ≤ (countNewlines c.text : Int) := Int.natCast_nonneg _
  omega

theorem stepResolve_after (c : ContentChange) (d : Int) (L : Nat)
    (h : (c.range.stop.line : Int) < (L : Int) - 1) :
    stepResolve c d L = (true, false, (L : Int) + d) := by
  unfold stepResolve
  rw [if_pos (by omega)]

theorem stepResolve_before (c : ContentChange) (d : Int) (L : Nat)
    (hwfc : rangeWf c.range)
    (h : (L : Int) - 1 < (c.range.start.line : Int)) :
    stepResolve c d L = (false, false, (L : Int)) := by
  have hline := posLe_line hwfc
  unfold stepResolve
  rw [if_neg (by omega), if_neg (by omega)]

theorem outcomeCore_keep_of (c : ContentChange) (d : Int) (b : Bookmark)
    (L : Nat) (v : Int) (hL : b.lineNumber = some L)
    (h : stepResolve c d L = (false, false, v)) :
    outcomeCore c d b = Outcome.keepIt := by
  unfold outcomeCore
  rw [hL]
  simp [h]

theorem outcomeCore_update_of (c : ContentChange) (d : Int) (b : Bookmark)
    (L : Nat) (hL : b.lineNumber = some L)
    (hu : (stepResolve c d L).1 = true)
    (hr : (stepResolve c d L).2.1 = false)
    (h1 : 1 ≤ (stepResolve c d L).2.2)
    (hne : (stepResolve c d L).2.2 ≠ (L : Int)) :
    outcomeCore c d b =
      Outcome.updateIt { b with lineNumber := some (stepResolve c d L).2.2.toNat } := by
  unfold outcomeCore
  rw [hL]
  simp [hu, hr, h1, hne]

theorem nodup_ids_distinct (bs : List Bookmark)
    (h : (bs.map Bookmark.id).Nodup) (i : Nat) (b : Bookmark)
    (hb : bs[i]? = some b) :
    ∀ j : Nat, ∀ b2 : Bookmark, bs[j]? = some b2 → j ≠ i → b2.id ≠ b.id := by
  intro j b2 hj hne heq
  have hi2 : i < bs.length := by
    by_contra hcon
    rw [List.getElem?_eq_none (by omega)] at hb
    cases hb
  have hj2 : j < bs.length := by
    by_contra hcon
    rw [List.getElem?_eq_none (by omega)] at hj
    cases hj
  have hbi : bs[i] = b := by
    rw [List.getElem?_eq_getElem hi2] at hb
    injection hb
  have hbj : bs[j] = b2 := by
    rw [List.getElem?_eq_getElem hj2] at hj
    injection hj
  have hmapeq : (bs.map Bookmark.id).get ⟨j, by simpa using hj2⟩ =
      (bs.map Bookmark.id).get ⟨i, by simpa using hi2⟩ := by
    simp [List.get_eq_getElem, hbi, hbj, heq]
  have hfin := (List.Nodup.get_inj_iff h).mp hmapeq
  rw [Fin.mk_eq_mk] at hfin
  exact hne hfin

/-- Core induction for the frame half of claim C1: a bookmark strictly
before every edit of the batch is left untouched. -/
theorem processChanges_keep (changes : List ContentChange) :
    ∀ (st : TrackState) (i : Nat) (b : Bookmark) (L : Nat),
      (∀ c ∈ changes, rangeWf c.range) →
      st.bookmarks[i]? = some b →
      b.lineNumber = some L →
      (∀ c ∈ changes, (L : Int) - 1 < (c.range.start.line : Int)) →
      (processChanges changes st).bookmarks[i]? = some b := by
  induction changes with
  | nil =>
    intro st i b L _ hb _ _
    exact hb
  | cons c cs ih =>
    intro st i b L hwf hb hL hbefore
    unfold processChanges
    rw [List.foldl_cons]
    have hkeep : chOutcome c b = Outcome.keepIt := by
      unfold chOutcome
      by_cases h0 : calculateLineDelta c = 0
      · rw [if_pos h0]
      · rw [if_neg h0]
        exact outcomeCore_keep_of c _ b L _ hL
          (stepResolve_before c (calculateLineDelta c) L
            (hwf c (List.mem_cons_self c cs))
            (hbefore c (List.mem_cons_self c cs)))
    have hstep := processChange_keep_at st c i b hb hkeep
    exact ih (processChange st c) i b L
      (fun c2 hc2 => hwf c2 (List.mem_cons_of_mem c hc2)) hstep hL
      (fun c2 hc2 => hbefore c2 (List.mem_cons_of_mem c hc2))

/-- Core induction for the shift half of claim C1: a bookmark strictly
after (below) every edit of the batch, processed bottom-to-top, moves by
the sum of the deltas, keeps its id, and is never flagged for
removal. -/
theorem processChanges_shift (changes : List ContentChange) :
    ∀ (st : TrackState) (i : Nat) (b : Bookmark) (L : Nat),
      (∀ c ∈ changes, rangeWf c.range) →
      changes.Pairwise nonOverlapping →
      changes.Sorted changeBefore →
      st.bookmarks[i]? = some b →
      b.lineNumber = some L →
      b.id ∉ st.removals →
      (st.bookmarks.map Bookmark.id).Nodup →
      (∀ c ∈ changes, (c.range.stop.line : Int) < (L : Int) - 1) →
      ∃ b2 : Bookmark, (processChanges changes st).bookmarks[i]? = some b2 ∧
        b2.id = b.id ∧
        (∃ N : Nat, b2.lineNumber = some N ∧
          (N : Int) = (L : Int) + (changes.map calculateLineDelta).sum) ∧
        b.id ∉ (processChanges changes st).removals := by
  induction changes with
  | nil =>
    intro st i b L _ _ _ hb hL hrem _ _
    exact ⟨b, hb, rfl, ⟨L, hL, by simp⟩, hrem⟩
  | cons c cs ih =>
    intro st i b L hwf hno hsorted hb hL hrem hnodup hafter
    have hwfc := hwf c (List.mem_cons_self c cs)
    have hwfcs : ∀ c2 ∈ cs, rangeWf c2.range :=
      fun c2 hc2 => hwf c2 (List.mem_cons_of_mem c hc2)
    have hno2 := List.pairwise_cons.mp hno
    have hsorted2 := List.sorted_cons.mp hsorted
    have haftercs : ∀ c2 ∈ cs, (c2.range.stop.line : Int) < (L : Int) - 1 :=
      fun c2 hc2 => hafter c2 (List.mem_cons_of_mem c hc2)
    unfold processChanges
    rw [List.foldl_cons]
    by_cases h0 : calculateLineDelta c = 0
    · have hpc : processChange st c = st := by
        unfold processChange
        rw [if_pos h0]
      rw [hpc]
      obtain ⟨b2, h1, h2, ⟨N, h3, h4⟩, h5⟩ :=
        ih st i b L hwfcs hno2.2 hsorted2.2 hb hL hrem hnodup haftercs
      refine ⟨b2, h1, h2, ⟨N, h3, ?_⟩, h5⟩
      rw [h4]
      simp [h0]
    · have hafterc : (c.range.stop.line : Int) < (L : Int) - 1 :=
        hafter c (List.mem_cons_self c cs)
      have hd_ge := calculateLineDelta_ge c
      have hslec := posLe_line hwfc
      have hgate1 : 1 ≤ (L : Int) + calculateLineDelta c := by omega
      have hgate2 : (L : Int) + calculateLineDelta c ≠ (L : Int) := by omega
      have hsr := stepResolve_after c (calculateLineDelta c) L hafterc
      have hoc : outcomeCore c (calculateLineDelta c) b =
          Outcome.updateIt
            { b with lineNumber := some ((L : Int) + calculateLineDelta c).toNat } := by
        have h := outcomeCore_update_of c (calculateLineDelta c) b L hL
          (by rw [hsr]) (by rw [hsr]) (by rw [hsr]; exact hgate1)
          (by rw [hsr]; exact hgate2)
        rw [hsr] at h
        exact h
      have hch : chOutcome c b =
          Outcome.updateIt
            { b with lineNumber := some ((L : Int) + calculateLineDelta c).toNat } := by
        unfold chOutcome
        rw [if_neg h0]
        exact hoc
      have hdist := nodup_ids_distinct st.bookmarks hnodup i b hb
      obtain ⟨hpt1, hpt2, _⟩ := processChange_at st c i b hb hrem hdist
      rw [hch] at hpt1 hpt2
      have hrem2 : b.id ∉ (processChange st c).removals := by
        rw [hpt2]
        intro hcon
        cases hcon
      have hnodup2 : ((processChange st c).bookmarks.map Bookmark.id).Nodup := by
        rw [processChange_ids]
        exact hnodup
      have hL2cast : (((L : Int) + calculateLineDelta c).toNat : Int) =
          (L : Int) + calculateLineDelta c :=
        Int.toNat_of_nonneg (by omega)
      have hafter2 : ∀ c2 ∈ cs, (c2.range.stop.line : Int) <
          ((((L : Int) + calculateLineDelta c).toNat : Nat) : Int) - 1 := by
        intro c2 hc2
        have hnov : nonOverlapping c c2 := hno2.1 c2 hc2
        have hsort : c2.range.start.line ≤ c.range.start.line :=
          hsorted2.1 c2 hc2
        have hafter_c2 := haftercs c2 hc2
        rw [hL2cast]
        rcases hnov with hA | hB
        · have hA2 := posLe_line hA
          omega
        · have hB2 := posLe_line hB
          omega
      obtain ⟨b3, h1, h2, ⟨N, h3, h4⟩, h5⟩ :=
        ih (processChange st c) i
          { b with lineNumber := some ((L : Int) + calculateLineDelta c).toNat }
          (((L : Int) + calculateLineDelta c).toNat)
          hwfcs hno2.2 hsorted2.2 hpt1 rfl hrem2 hnodup2 hafter2
      refine ⟨b3, h1, h2, ⟨N, h3, ?_⟩, h5⟩
      rw [h4, hL2cast]
      simp only [List.map_cons, List.sum_cons]
      ring

theorem nonOverlapping_symm : Symmetric nonOverlapping :=
  fun _ _ h => Or.symm h

/-- Claim C1: over a batch of pairwise non-overlapping edits, a tracked
marker strictly after (below) the end line of every edit ends at its old
line plus the sum of all the edits' line deltas, and a tracked marker
strictly before the start line of every edit keeps its line number
unchanged. -/
theorem C1_batch_shift_and_frame (changes : List ContentChange)
    (bookmarks : List Bookmark) (i : Nat) (b : Bookmark) (L : Nat)
    (hwf : ∀ c ∈ changes, rangeWf c.range)
    (hno : changes.Pairwise nonOverlapping)
    (hids : (bookmarks.map Bookmark.id).Nodup)
    (hb : bookmarks[i]? = some b)
    (hL : b.lineNumber = some L) :
    ((∀ c ∈ changes, (c.range.stop.line : Int) < (L : Int) - 1) →
      ∃ b2 : Bookmark,
        (updateBookmarkPositions changes bookmarks).bookmarks[i]? = some b2 ∧
        b2.id = b.id ∧
        ∃ N : Nat, b2.lineNumber = some N ∧
          (N : Int) = (L : Int) + (changes.map calculateLineDelta).sum) ∧
    ((∀ c ∈ changes, (L : Int) - 1 < (c.range.start.line : Int)) →
      (updateBookmarkPositions changes bookmarks).bookmarks[i]? = some b) := by
  unfold updateBookmarkPositions
  have hperm := List.perm_insertionSort changeBefore changes
  have hmem : ∀ c ∈ changes.insertionSort changeBefore, c ∈ changes :=
    fun c hc => hperm.mem_iff.mp hc
  constructor
  · intro hafter
    obtain ⟨b2, h1, h2, ⟨N, h3, h4⟩, -⟩ :=
      processChanges_shift (changes.insertionSort changeBefore)
        ⟨bookmarks, [], []⟩ i b L
        (fun c hc => hwf c (hmem c hc))
        ((hperm.pairwise_iff @nonOverlapping_symm).mpr hno)
        (List.sorted_insertionSort changeBefore changes)
        hb hL (by simp) hids
        (fun c hc => hafter c (hmem c hc))
    refine ⟨b2, h1, h2, N, h3, ?_⟩
    rw [h4]
    congr 1
    exact (hperm.map calculateLineDelta).sum_eq
  · intro hbefore
    exact processChanges_keep (changes.insertionSort changeBefore)
      ⟨bookmarks, [], []⟩ i b L
      (fun c hc => hwf c (hmem c hc)) hb hL
      (fun c hc => hbefore c (hmem c hc))

/-- Concrete edit for the claim C1 witness: insert two full lines at
position (2, 0). -/
def cW1 : ContentChange := ⟨⟨⟨2, 0⟩, ⟨2, 0⟩⟩, "ab\ncd\n".toList⟩

/-- Concrete bookmark for the claim C1 witness: tracked marker at
1-based line 10. -/
def bmW1 : Bookmark := ⟨"a1", "f.ts", some 10, none, none, some true⟩

/-- Witness for claim C1 (the spec's scenario A): a marker at line 10
moves to line 12 when two lines are inserted above it. -/
theorem C1_witness :
    ∃ b2 : Bookmark,
      (updateBookmarkPositions [cW1] [bmW1]).bookmarks[0]? = some b2 ∧
      b2.id = bmW1.id ∧
      ∃ N : Nat, b2.lineNumber = some N ∧
        (N : Int) = ((10 : Nat) : Int) + ([cW1].map calculateLineDelta).sum :=
  (C1_batch_shift_and_frame [cW1] [bmW1] 0 bmW1 10
    (by decide) (by decide) (by decide) rfl rfl).1 (by decide)

/-! Evaluating the cascade in the regime of claim C2 (a deletion
overlapping the bookmark line). -/

theorem stepResolve_remove (c : ContentChange) (d : Int) (L : Nat)
    (hd : d < 0)
    (hin1 : (c.range.start.line : Int) ≤ (L : Int) - 1)
    (hin2 : (L : Int) - 1 ≤ (c.range.stop.line : Int))
    (hH : c.range.start.character = 0 ∧
      (c.range.stop.character = 0 ∨ c.range.stop.line > c.range.start.line))
    (hW : (c.range.start.line : Int) ≤ (L : Int) - 1 ∧
      (L : Int) - 1 < (c.range.stop.line : Int)) :
    stepResolve c d L = (false, true, (L : Int)) := by
  unfold stepResolve
  rw [if_neg (by omega), if_pos ⟨by omega, by omega⟩,
    if_neg (by rintro ⟨h, -⟩; omega), if_pos hd,
    if_pos ⟨hH, by omega, by omega⟩]

theorem stepResolve_fallback (c : ContentChange) (d : Int) (L : Nat)
    (hd : d < 0)
    (hin1 : (c.range.start.line : Int) ≤ (L : Int) - 1)
    (hin2 : (L : Int) - 1 ≤ (c.range.stop.line : Int))
    (hnot : ¬ ((c.range.start.character = 0 ∧
        (c.range.stop.character = 0 ∨ c.range.stop.line > c.range.start.line)) ∧
      ((c.range.start.line : Int) ≤ (L : Int) - 1 ∧
        (L : Int) - 1 < (c.range.stop.line : Int)))) :
    stepResolve c d L = (true, false, max 1 ((c.range.start.line : Int) + 1)) := by
  unfold stepResolve
  rw [if_neg (by omega), if_pos ⟨by omega, by omega⟩,
    if_neg (by rintro ⟨h, -⟩; omega), if_pos hd,
    if_neg (by rintro ⟨h1, h2, h3⟩; exact hnot ⟨h1, h2, h3⟩)]

/-- Claim C2: for an edit with `lineDelta < 0` and a tracked marker
whose 0-based line lies inside the edit's [startLine, endLine] span, the
marker is flagged for removal exactly when the full-line-deletion
heuristic fires with the marker inside the end-exclusive span, and
otherwise its 1-based line becomes `max(1, startLine + 1)`. -/
theorem C2_deletion_heuristic (c : ContentChange) (b : Bookmark) (L : Nat)
    (hL : b.lineNumber = some L)
    (hdelta : calculateLineDelta c < 0)
    (hin1 : (c.range.start.line : Int) ≤ (L : Int) - 1)
    (hin2 : (L : Int) - 1 ≤ (c.range.stop.line : Int)) :
    ((updateBookmarkPositions [c] [b]).removals = [b.id] ↔
      ((c.range.start.character = 0 ∧
          (c.range.stop.character = 0 ∨ c.range.stop.line > c.range.start.line)) ∧
        ((c.range.start.line : Int) ≤ (L : Int) - 1 ∧
          (L : Int) - 1 < (c.range.stop.line : Int)))) ∧
    (¬ ((c.range.start.character = 0 ∧
          (c.range.stop.character = 0 ∨ c.range.stop.line > c.range.start.line)) ∧
        ((c.range.start.line : Int) ≤ (L : Int) - 1 ∧
          (L : Int) - 1 < (c.range.stop.line : Int))) →
      ∃ b2 : Bookmark, (updateBookmarkPositions [c] [b]).bookmarks = [b2] ∧
        b2.lineNumber = some (max 1 (c.range.start.line + 1))) := by
  have hd0 : calculateLineDelta c ≠ 0 := by omega
  have hrun : updateBookmarkPositions [c] [b] =
      processBookmark c (calculateLineDelta c) ⟨[], [], []⟩ b := by
    show processChange ⟨[b], [], []⟩ c = _
    unfold processChange
    rw [if_neg hd0]
    rfl
  have heff : effOutcome c (calculateLineDelta c) [] b =
      outcomeCore c (calculateLineDelta c) b := by
    unfold effOutcome
    rw [if_neg (List.not_mem_nil _)]
  by_cases hHW : (c.range.start.character = 0 ∧
      (c.range.stop.character = 0 ∨ c.range.stop.line > c.range.start.line)) ∧
    ((c.range.start.line : Int) ≤ (L : Int) - 1 ∧
      (L : Int) - 1 < (c.range.stop.line : Int))
  · have hsr := stepResolve_remove c (calculateLineDelta c) L hdelta hin1 hin2
      hHW.1 hHW.2
    have hoc : outcomeCore c (calculateLineDelta c) b = Outcome.removeIt := by
      unfold outcomeCore
      rw [hL]
      simp [hsr]
    rw [hrun, processBookmark_eq, heff, hoc]
    constructor
    · simp only [remPush]
      constructor
      · intro _
        exact hHW
      · intro _
        simp
    · intro hcon
      exact absurd hHW hcon
  · have hsr := stepResolve_fallback c (calculateLineDelta c) L hdelta hin1 hin2 hHW
    have hmaxNat : max 1 (c.range.start.line + 1) = c.range.start.line + 1 :=
      max_eq_right (by omega)
    have hmaxInt : max 1 ((c.range.start.line : Int) + 1) =
        (c.range.start.line : Int) + 1 :=
      max_eq_right (by omega)
    by_cases hEq : max 1 ((c.range.start.line : Int) + 1) = (L : Int)
    · have hoc : outcomeCore c (calculateLineDelta c) b = Outcome.keepIt := by
        unfold outcomeCore
        rw [hL]
        simp only [hsr]
        rw [if_neg (by simp), if_neg (by rintro ⟨-, -, h3⟩; exact h3 hEq)]
      rw [hmaxInt] at hEq
      rw [hrun, processBookmark_eq, heff, hoc]
      constructor
      · constructor
        · intro h
          exfalso
          simp [remPush] at h
        · intro h
          exact absurd h hHW
      · intro _
        refine ⟨outcomeBookmark b Outcome.keepIt, by simp, ?_⟩
        show b.lineNumber = some (max 1 (c.range.start.line + 1))
        rw [hL, hmaxNat]
        congr 1
        omega
    · have hoc : outcomeCore c (calculateLineDelta c) b =
          Outcome.updateIt
            { b with lineNumber := some (max 1 ((c.range.start.line : Int) + 1)).toNat } := by
        unfold outcomeCore
        rw [hL]
        simp only [hsr]
        rw [if_neg (by simp), if_pos ⟨by simp, le_max_left _ _, hEq⟩]
      rw [hrun, processBookmark_eq, heff, hoc]
      constructor
      · constructor
        · intro h
          exfalso
          simp [remPush] at h
        · intro h
          exact absurd h hHW
      · intro _
        refine ⟨{ b with
            lineNumber := some (max 1 ((c.range.start.line : Int) + 1)).toNat },
          by simp [outcomeBookmark], ?_⟩
        show some (max 1 ((c.range.start.line : Int) + 1)).toNat =
          some (max 1 (c.range.start.line + 1))
        rw [hmaxInt, hmaxNat]
        exact congrArg some (by omega)

/-- Concrete edit for the claim C2 witness: delete the whole 0-based
line 4 (range (4,0)–(5,0), the spec's scenario B shape). -/
def cW2 : ContentChange := ⟨⟨⟨4, 0⟩, ⟨5, 0⟩⟩, []⟩

/-- Concrete bookmark for the claim C2 witness: marker on 1-based line 5
(0-based 4). -/
def bmW2 : Bookmark := ⟨"b1", "f.ts", some 5, none, none, some true⟩

/-- Witness for claim C2 (the spec's scenario B): deleting the marker's
whole line flags the marker for removal. -/
theorem C2_witness :
    (updateBookmarkPositions [cW2] [bmW2]).removals = [bmW2.id] :=
  ((C2_deletion_heuristic cW2 bmW2 5 rfl (by decide) (by decide) (by decide)).1).mpr
    (by decide)

/-! Claim C6: the id "bm" can be both updated and removed in one pass. -/

/-- First edit of the claim C6 counterexample: insert one full line at
position (5, 0). -/
def cW6a : ContentChange := ⟨⟨⟨5, 0⟩, ⟨5, 0⟩⟩, "X\n".toList⟩

/-- Second edit of the claim C6 counterexample: delete lines [5, 9),
starting exactly where the insertion sits (the two ranges touch but do
not overlap). -/
def cW6b : ContentChange := ⟨⟨⟨5, 0⟩, ⟨9, 0⟩⟩, []⟩

/-- The tracked marker of the claim C6 counterexample, on 1-based
line 7. -/
def bmW6 : Bookmark := ⟨"bm", "f.ts", some 7, none, none, some true⟩

/-- Claim C6 is false as stated: over this batch of two well-formed,
pairwise non-overlapping edits (sharing a start line), the marker is
first shifted by the insertion (7 → 9, emitting an update) and then
flagged for removal by the deletion — its id ends in both the updates
and the removals lists of the same pass. -/
theorem C6_counterexample :
    (∀ c ∈ [cW6a, cW6b], rangeWf c.range) ∧
      List.Pairwise nonOverlapping [cW6a, cW6b] ∧
      ([bmW6].map Bookmark.id).Nodup ∧
      "bm" ∈ (updateBookmarkPositions [cW6a, cW6b] [bmW6]).updates ∧
      "bm" ∈ (updateBookmarkPositions [cW6a, cW6b] [bmW6]).removals := by
  decide

/-- Once scheduled for removal, a bookmark id is frozen by the inner
fold: its count in the updates list does not change, it stays scheduled,
and every bookmark carrying it is appended unchanged. -/
theorem foldPB_removed_frozen (change : ContentChange) (lineDelta : Int) :
    ∀ (bs : List Bookmark) (st : TrackState) (x : String), x ∈ st.removals →
      ((bs.foldl (processBookmark change lineDelta) st).updates.count x =
        st.updates.count x) ∧
      x ∈ (bs.foldl (processBookmark change lineDelta) st).removals ∧
      (∀ (i : Nat) (b : Bookmark), bs[i]? = some b → b.id = x →
        (bs.foldl (processBookmark change lineDelta) st).bookmarks[st.bookmarks.length + i]? =
          some b)
  | [], st, x => by
    intro hx
    refine ⟨rfl, hx, ?_⟩
    intro i b hb
    simp at hb
  | b₀ :: bs, st, x => by
    intro hx
    have hx1 : x ∈ (processBookmark change lineDelta st b₀).removals := by
      rw [processBookmark_eq]
      exact List.mem_append_left _ hx
    obtain ⟨ihc, ihm, ihp⟩ :=
      foldPB_removed_frozen change lineDelta bs
        (processBookmark change lineDelta st b₀) x hx1
    have hcnt : (processBookmark change lineDelta st b₀).updates.count x =
        st.updates.count x := by
      rw [processBookmark_eq]
      simp only [List.count_append]
      by_cases hbid : b₀.id = x
      · have : effOutcome change lineDelta st.removals b₀ = Outcome.keepIt := by
          unfold effOutcome
          rw [if_pos (hbid ▸ hx)]
        rw [this]
        simp [updPush]
      · cases heff : effOutcome change lineDelta st.removals b₀ <;>
          simp [updPush, List.count_singleton, hbid]
    rw [List.foldl_cons]
    refine ⟨by rw [ihc, hcnt], ihm, ?_⟩
    intro i b hb hbid
    cases i with
    | zero =>
      rw [List.getElem?_cons_zero] at hb
      obtain rfl : b₀ = b := by injection hb
      have hskip : effOutcome change lineDelta st.removals b₀ = Outcome.keepIt := by
        unfold effOutcome
        rw [if_pos (hbid ▸ hx)]
      have hbk : (processBookmark change lineDelta st b₀).bookmarks =
          st.bookmarks ++ [b₀] := by
        rw [processBookmark_eq, hskip]
        rfl
      rw [foldPB_bookmarks_get_left change lineDelta bs _ _
        (by rw [hbk]; simp)]
      rw [hbk]
      simp only [Nat.add_zero]
      exact List.getElem?_concat_length _ _
    | succ j =>
      rw [List.getElem?_cons_succ] at hb
      have hlen : (processBookmark change lineDelta st b₀).bookmarks.length =
          st.bookmarks.length + 1 := by
        rw [processBookmark_eq]
        simp
      rw [show st.bookmarks.length + (j + 1) =
        (processBookmark change lineDelta st b₀).bookmarks.length + j by omega]
      exact ihp j b hb hbid

/-- Lifting `foldPB_removed_frozen` over one change. -/
theorem processChange_removed_frozen (st : TrackState) (c : ContentChange)
    (x : String) (hx : x ∈ st.removals) :
    ((processChange st c).updates.count x = st.updates.count x) ∧
      x ∈ (processChange st c).removals ∧
      (∀ (i : Nat) (b : Bookmark), st.bookmarks[i]? = some b → b.id = x →
        (processChange st c).bookmarks[i]? = some b) := by
  unfold processChange
  by_cases h0 : calculateLineDelta c = 0
  · rw [if_pos h0]
    exact ⟨rfl, hx, fun i b hb _ => hb⟩
  · rw [if_neg h0]
    have := foldPB_removed_frozen c (calculateLineDelta c) st.bookmarks
      ⟨[], st.updates, st.removals⟩ x hx
    simpa using this

/-- Claim C6, amended: once a marker id is in the removals set, the
remaining edits of the batch skip it entirely — its updates count never
grows, it stays scheduled for removal, and every bookmark carrying the
id is left unchanged.  (The original claim's stronger symmetric form is
false: an id already emitted as updated can afterwards be flagged for
removal, as `C6_counterexample` shows; the code's guard only prevents
removal followed by update.) -/
theorem C6_removed_then_frozen (changes : List ContentChange) :
    ∀ (st : TrackState) (x : String),
      x ∈ st.removals →
      ((processChanges changes st).updates.count x = st.updates.count x) ∧
        x ∈ (processChanges changes st).removals ∧
        (∀ (i : Nat) (b : Bookmark), st.bookmarks[i]? = some b → b.id = x →
          (processChanges changes st).bookmarks[i]? = some b) := by
  induction changes with
  | nil =>
    intro st x hx
    exact ⟨rfl, hx, fun i b hb _ => hb⟩
  | cons c cs ih =>
    intro st x hx
    obtain ⟨h1, h2, h3⟩ := processChange_removed_frozen st c x hx
    obtain ⟨ih1, ih2, ih3⟩ := ih (processChange st c) x h2
    unfold processChanges
    rw [List.foldl_cons]
    exact ⟨ih1.trans h1, ih2, fun i b hb hbid => ih3 i b (h3 i b hb hbid) hbid⟩

/-- Witness for the amended claim C6 at a concrete state: with "bm"
already scheduled for removal, processing the deletion edit leaves the
updates count, the removal, and the bookmark untouched. -/
theorem C6_witness :
    ((processChanges [cW6b] ⟨[bmW6], [], ["bm"]⟩).updates.count "bm" =
        (List.count "bm" [])) ∧
      "bm" ∈ (processChanges [cW6b] ⟨[bmW6], [], ["bm"]⟩).removals ∧
      (∀ (i : Nat) (b : Bookmark), [bmW6][i]? = some b → b.id = "bm" →
        (processChanges [cW6b] ⟨[bmW6], [], ["bm"]⟩).bookmarks[i]? = some b) :=
  C6_removed_then_frozen [cW6b] ⟨[bmW6], [], ["bm"]⟩ "bm" (by decide)

/-! Claim C8: markers filtered out of the pass are untouched. -/

theorem processChanges_ids (changes : List ContentChange) :
    ∀ st : TrackState, (processChanges changes st).bookmarks.map Bookmark.id =
      st.bookmarks.map Bookmark.id := by
  induction changes with
  | nil => intro st; rfl
  | cons c cs ih =>
    intro st
    unfold processChanges
    rw [List.foldl_cons]
    exact (ih (processChange st c)).trans (processChange_ids st c)

theorem processChanges_updates_mem (changes : List ContentChange) :
    ∀ (st : TrackState) (x : String),
      x ∈ (processChanges changes st).updates →
      x ∈ st.updates ∨ x ∈ st.bookmarks.map Bookmark.id := by
  induction changes with
  | nil => intro st x h; exact Or.inl h
  | cons c cs ih =>
    intro st x h
    unfold processChanges at h
    rw [List.foldl_cons] at h
    rcases ih (processChange st c) x h with h1 | h1
    · exact processChange_updates_mem st c x h1
    · rw [processChange_ids] at h1
      exact Or.inr h1

theorem processChanges_removals_mem (changes : List ContentChange) :
    ∀ (st : TrackState) (x : String),
      x ∈ (processChanges changes st).removals →
      x ∈ st.removals ∨ x ∈ st.bookmarks.map Bookmark.id := by
  induction changes with
  | nil => intro st x h; exact Or.inl h
  | cons c cs ih =>
    intro st x h
    unfold processChanges at h
    rw [List.foldl_cons] at h
    rcases ih (processChange st c) x h with h1 | h1
    · exact processChange_removals_mem st c x h1
    · rw [processChange_ids] at h1
      exact Or.inr h1

/-- A bookmark with no line number is kept unchanged by every change
(the `lineNumber !== undefined` guard). -/
theorem processChanges_keep_none (changes : List ContentChange) :
    ∀ (st : TrackState) (i : Nat) (b : Bookmark),
      st.bookmarks[i]? = some b → b.lineNumber = none →
      (processChanges changes st).bookmarks[i]? = some b := by
  induction changes with
  | nil => intro st i b hb _; exact hb
  | cons c cs ih =>
    intro st i b hb hnone
    unfold processChanges
    rw [List.foldl_cons]
    have hkeep : chOutcome c b = Outcome.keepIt := by
      unfold chOutcome
      by_cases h0 : calculateLineDelta c = 0
      · rw [if_pos h0]
      · rw [if_neg h0]
        unfold outcomeCore
        rw [hnone]
    exact ih (processChange st c) i b (processChange_keep_at st c i b hb hkeep) hnone

/-- Claim C8: a marker with tracking disabled or no line number is
silently skipped by the document-change pass — the filter excludes it,
so it is never mutated and its id appears in neither the updates nor the
removals output; moreover, even a bookmark handed directly to
`updateBookmarkPositions` with no line number is left unchanged by the
inner guard. -/
theorem C8_disabled_markers_skipped (filePath : String)
    (changes : List ContentChange) (allBookmarks : List Bookmark)
    (b : Bookmark)
    (hmem : b ∈ allBookmarks)
    (hskip : b.trackingEnabled = some false ∨ b.lineNumber = none)
    (hids : (allBookmarks.map Bookmark.id).Nodup) :
    (b.id ∉ (onDocumentChangedCore filePath changes allBookmarks).updates ∧
      b.id ∉ (onDocumentChangedCore filePath changes allBookmarks).removals ∧
      ∀ b2 ∈ (onDocumentChangedCore filePath changes allBookmarks).bookmarks,
        b2.id ≠ b.id) ∧
    (∀ (bs : List Bookmark) (i : Nat) (b3 : Bookmark),
      bs[i]? = some b3 → b3.lineNumber = none →
      (updateBookmarkPositions changes bs).bookmarks[i]? = some b3) := by
  have hfiltered : b ∉ fileBookmarks filePath allBookmarks := by
    intro hf
    unfold fileBookmarks at hf
    have hcond := List.of_mem_filter hf
    rcases hskip with h | h <;> simp [h] at hcond
  have hnotid : b.id ∉ (fileBookmarks filePath allBookmarks).map Bookmark.id := by
    intro hidmem
    obtain ⟨b2, hb2mem, hb2id⟩ := List.mem_map.mp hidmem
    have hb2all : b2 ∈ allBookmarks :=
      List.mem_of_mem_filter hb2mem
    have : b2 = b := List.inj_on_of_nodup_map hids hb2all hmem hb2id
    rw [this] at hb2mem
    exact hfiltered hb2mem
  constructor
  · refine ⟨?_, ?_, ?_⟩
    · intro hupd
      unfold onDocumentChangedCore updateBookmarkPositions at hupd
      rcases processChanges_updates_mem _ _ _ hupd with h | h
      · cases h
      · exact hnotid h
    · intro hrem
      unfold onDocumentChangedCore updateBookmarkPositions at hrem
      rcases processChanges_removals_mem _ _ _ hrem with h | h
      · cases h
      · exact hnotid h
    · intro b2 hb2 hcon
      unfold onDocumentChangedCore updateBookmarkPositions at hb2
      have : b2.id ∈ (processChanges
          ((changes.insertionSort changeBefore))
          ⟨fileBookmarks filePath allBookmarks, [], []⟩).bookmarks.map Bookmark.id :=
        List.mem_map_of_mem Bookmark.id hb2
      rw [processChanges_ids] at this
      rw [hcon] at this
      exact hnotid this
  · intro bs i b3 hb3 hnone
    unfold updateBookmarkPositions
    exact processChanges_keep_none _ _ i b3 hb3 hnone

/-- Concrete disabled marker for the claim C8 witness. -/
def bmW8 : Bookmark := ⟨"d1", "f.ts", some 4, none, none, some false⟩

/-- Witness for claim C8: with tracking disabled, the marker of the
concrete batch appears in neither output list and no processed bookmark
carries its id. -/
theorem C8_witness :
    (bmW8.id ∉ (onDocumentChangedCore "f.ts" [cW2] [bmW8, bmW2]).updates ∧
      bmW8.id ∉ (onDocumentChangedCore "f.ts" [cW2] [bmW8, bmW2]).removals ∧
      ∀ b2 ∈ (onDocumentChangedCore "f.ts" [cW2] [bmW8, bmW2]).bookmarks,
        b2.id ≠ bmW8.id) ∧
    (∀ (bs : List Bookmark) (i : Nat) (b3 : Bookmark),
      bs[i]? = some b3 → b3.lineNumber = none →
      (updateBookmarkPositions [cW2] bs).bookmarks[i]? = some b3) :=
  C8_disabled_markers_skipped "f.ts" [cW2] [bmW8, bmW2] bmW8
    (by decide) (Or.inl rfl) (by decide)

/-! ### Update coalescer (debounceBookmarkUpdate / dispose)

The per-file debounce timers (`debouncedUpdate : Map<string, Timeout>`)
are modelled as a labelled transition system.  `debounceBookmarkUpdate`
clears any existing timer for the file and arms a new one holding the
batch (last write wins); an armed timer that fires applies its batch and
deletes its map entry; a cleared timer can never fire (so `fire` is only
enabled for the file's current pending entry, matching `clearTimeout`);
`dispose` clears every timer without applying anything.  Each armed
timer instance carries a token, so applying the same scheduled batch
twice is expressible as a repeated token.
-/

/-- One coalesced batch: the pending updates and removals for a file. -/
structure Batch where
  updates : List String
  removals : List String
deriving DecidableEq

inductive CoalescerEvent where
  | schedule (filePath : String) (token : Nat) (batch : Batch)
  | fire (filePath : String)
  | dispose
deriving DecidableEq

/-- The timer map (file path ↦ armed token and batch) and the log of
applied (fired) batches in order. -/
structure CoalescerState where
  pending : List (String × Nat × Batch)
  applied : List (Nat × Batch)
deriving DecidableEq

def initCoalescer : CoalescerState := ⟨[], []⟩

/-- Transcription of `debounceBookmarkUpdate`: `clearTimeout` on the
existing timer for this file, then arm a new timer holding this batch. -/
def scheduleBatch (st : CoalescerState) (p : String) (tok : Nat)
    (b : Batch) : CoalescerState :=
  { st with pending := (p, tok, b) :: st.pending.filter (fun e2 => !(e2.1 == p)) }

/-- A timer firing: the file's armed timer applies its batch and removes
itself from the map; with no armed timer nothing happens. -/
def fireTimer (st : CoalescerState) (p : String) : CoalescerState :=
  match st.pending.find? (fun e2 => e2.1 == p) with
  | some e =>
    { pending := st.pending.filter (fun e2 => !(e2.1 == p)),
      applied := st.applied ++ [e.2] }
  | none => st

/-- Transcription of `dispose`: `clearTimeout` on every pending timer
and clear the map, applying nothing. -/
def disposeAll (st : CoalescerState) : CoalescerState :=
  { st with pending := [] }

def coalescerStep (st : CoalescerState) : CoalescerEvent → CoalescerState
  | CoalescerEvent.schedule p tok b => scheduleBatch st p tok b
  | CoalescerEvent.fire p => fireTimer st p
  | CoalescerEvent.dispose => disposeAll st

def runCoalescer (events : List CoalescerEvent) (st : CoalescerState) :
    CoalescerState :=
  events.foldl coalescerStep st

/-- The token a schedule event arms, if any. -/
def scheduleToken : CoalescerEvent → Option Nat
  | CoalescerEvent.schedule _ tok _ => some tok
  | _ => none

theorem step_keys_nodup (st : CoalescerState) (e : CoalescerEvent)
    (h : (st.pending.map Prod.fst).Nodup) :
    ((coalescerStep st e).pending.map Prod.fst).Nodup := by
  cases e with
  | schedule p tok b =>
    show ((scheduleBatch st p tok b).pending.map Prod.fst).Nodup
    unfold scheduleBatch
    simp only [List.map_cons]
    rw [List.nodup_cons]
    constructor
    · intro hmem
      obtain ⟨e2, he2, hfst⟩ := List.mem_map.mp hmem
      have := List.of_mem_filter he2
      simp only [Bool.not_eq_true', beq_eq_false_iff_ne] at this
      exact this hfst
    · exact List.Nodup.sublist ((List.filter_sublist _).map Prod.fst) h
  | fire p =>
    show ((fireTimer st p).pending.map Prod.fst).Nodup
    unfold fireTimer
    cases hf : st.pending.find? (fun e2 => e2.1 == p) with
    | none => exact h
    | some e2 =>
      exact List.Nodup.sublist ((List.filter_sublist _).map Prod.fst) h
  | dispose =>
    show ((disposeAll st).pending.map Prod.fst).Nodup
    simp [disposeAll]

theorem run_keys_nodup (events : List CoalescerEvent) :
    ∀ st : CoalescerState, (st.pending.map Prod.fst).Nodup →
      ((runCoalescer events st).pending.map Prod.fst).Nodup := by
  induction events with
  | nil => intro st h; exact h
  | cons e evs ih =>
    intro st h
    unfold runCoalescer
    rw [List.foldl_cons]
    exact ih (coalescerStep st e) (step_keys_nodup st e h)

theorem step_token_frozen (st : CoalescerState) (e : CoalescerEvent) (t : Nat)
    (hp : t ∉ st.pending.map (fun e2 => e2.2.1))
    (ha : t ∉ st.applied.map Prod.fst)
    (hs : scheduleToken e ≠ some t) :
    t ∉ (coalescerStep st e).pending.map (fun e2 => e2.2.1) ∧
      t ∉ (coalescerStep st e).applied.map Prod.fst := by
  cases e with
  | schedule p tok b =>
    have htok : tok ≠ t := by
      intro hcon
      exact hs (by rw [hcon]; rfl)
    show t ∉ (scheduleBatch st p tok b).pending.map (fun e2 => e2.2.1) ∧
      t ∉ (scheduleBatch st p tok b).applied.map Prod.fst
    unfold scheduleBatch
    refine ⟨?_, ha⟩
    simp only [List.map_cons]
    rw [List.mem_cons]
    rintro (h | h)
    · exact htok h.symm
    · obtain ⟨e2, he2, hsnd⟩ := List.mem_map.mp h
      exact hp (List.mem_map.mpr ⟨e2, List.mem_of_mem_filter he2, hsnd⟩)
  | fire p =>
    show t ∉ (fireTimer st p).pending.map (fun e2 => e2.2.1) ∧
      t ∉ (fireTimer st p).applied.map Prod.fst
    unfold fireTimer
    cases hf : st.pending.find? (fun e2 => e2.1 == p) with
    | none => exact ⟨hp, ha⟩
    | some e2 =>
      constructor
      · intro h
        obtain ⟨e3, he3, hsnd⟩ := List.mem_map.mp h
        exact hp (List.mem_map.mpr ⟨e3, List.mem_of_mem_filter he3, hsnd⟩)
      · intro h
        rw [List.map_append, List.mem_append] at h
        rcases h with h | h
        · exact ha h
        · have hmem := List.mem_of_find?_eq_some hf
          have hval : e2.2.1 ∈ st.pending.map (fun e3 => e3.2.1) :=
            List.mem_map_of_mem _ hmem
          rcases List.mem_singleton.mp h with rfl
          exact hp hval
  | dispose =>
    show t ∉ (disposeAll st).pending.map (fun e2 => e2.2.1) ∧
      t ∉ (disposeAll st).applied.map Prod.fst
    exact ⟨by simp [disposeAll], ha⟩

theorem run_token_frozen (events : List CoalescerEvent) :
    ∀ (st : CoalescerState) (t : Nat),
      t ∉ st.pending.map (fun e2 => e2.2.1) →
      t ∉ st.applied.map Prod.fst →
      (∀ e ∈ events, scheduleToken e ≠ some t) →
      t ∉ (runCoalescer events st).applied.map Prod.fst := by
  induction events with
  | nil => intro st t _ ha _; exact ha
  | cons e evs ih =>
    intro st t hp ha hs
    unfold runCoalescer
    rw [List.foldl_cons]
    obtain ⟨hp2, ha2⟩ := step_token_frozen st e t hp ha
      (hs e (List.mem_cons_self e evs))
    exact ih (coalescerStep st e) t hp2 ha2
      (fun e2 he2 => hs e2 (List.mem_cons_of_mem e he2))

/-- Claim C9: for every file at most one pending coalesced batch exists
at a time (the timer-map keys stay pairwise distinct in every reachable
state); scheduling replaces the file's pending batch (last write wins)
and the replaced or cancelled timer instance is never applied
afterwards; and disposing cancels all pending timers without applying
any of their batches. -/
theorem C9_coalescer_discipline (events : List CoalescerEvent) :
    (((runCoalescer events initCoalescer).pending.map Prod.fst).Nodup) ∧
    (∀ (st : CoalescerState) (p : String) (tok : Nat) (b : Batch),
      (scheduleBatch st p tok b).pending.find? (fun e2 => e2.1 == p) =
        some (p, tok, b)) ∧
    (∀ (st : CoalescerState) (evs : List CoalescerEvent) (t : Nat),
      t ∉ st.pending.map (fun e2 => e2.2.1) →
      t ∉ st.applied.map Prod.fst →
      (∀ e ∈ evs, scheduleToken e ≠ some t) →
      t ∉ (runCoalescer evs st).applied.map Prod.fst) ∧
    (runCoalescer (events ++ [CoalescerEvent.dispose]) initCoalescer =
      ⟨[], (runCoalescer events initCoalescer).applied⟩) := by
  refine ⟨?_, ?_, ?_, ?_⟩
  · exact run_keys_nodup events initCoalescer (by simp [initCoalescer])
  · intro st p tok b
    unfold scheduleBatch
    simp only
    rw [List.find?_cons_of_pos _ (by simp)]
  · exact fun st evs t => run_token_frozen evs st t
  · unfold runCoalescer
    rw [List.foldl_append]
    rfl

end Bookmarker
